import Mathlib

/-!
Verification development for the CBR_Parsers ingestion core.

The Python sources under `src/storage/local.py`, `src/scheduler.py` and
`src/parsers/` are shallowly embedded here.  Text is modelled at the level
of UTF-8 byte sequences (`List Nat`, each entry a byte value); Python string
operations (`str.strip`, `urllib.parse.urlsplit`, `urllib.parse.parse_qsl`,
`urllib.parse.urlencode`, `urllib.parse.unquote`, `re.sub`, slicing) are
embedded as executable functions on byte lists, following the CPython 3.11
implementations of those primitives.  Case folding and whitespace
classification are modelled for the ASCII range; bytes ≥ 128 pass through
unchanged (CPython additionally folds non-ASCII code points, which no claim
here depends on).  Stateful code (sqlite index, the append-only record log,
the attachment directory) is modelled by explicit state records, one field
per persistent table or file, with sqlite `INSERT OR IGNORE` modelled as
insert-if-absent into an association list.
-/

/-- Byte strings: each entry is one byte of the UTF-8 encoding. -/
abbrev Bytes := List Nat

/-- Bytes of an ASCII string literal (for ASCII text, code points = bytes). -/
def asciiBytes (s : String) : Bytes := s.toList.map Char.toNat

/-- ASCII whitespace bytes stripped by Python `str.strip()`
(space, \t, \n, \v, \f, \r and the C0 separators 28–31). -/
def isStripByte (b : Nat) : Bool := b == 32 || (9 ≤ b && b ≤ 13) || (28 ≤ b && b ≤ 31)

/-- Python `str.strip()` (ASCII whitespace). -/
def pyStrip (xs : Bytes) : Bytes :=
  ((xs.dropWhile isStripByte).reverse.dropWhile isStripByte).reverse

/-- CPython `urlsplit` removes `_UNSAFE_URL_BYTES_TO_REMOVE = ["\t", "\r", "\n"]`. -/
def removeUnsafe (xs : Bytes) : Bytes := xs.filter (fun b => !(b == 9 || b == 13 || b == 10))

def isAlphaB (b : Nat) : Bool := (65 ≤ b && b ≤ 90) || (97 ≤ b && b ≤ 122)

def isDigitB (b : Nat) : Bool := 48 ≤ b && b ≤ 57

def isAlnumB (b : Nat) : Bool := isAlphaB b || isDigitB b

/-- CPython `scheme_chars`: letters, digits and `+-.`. -/
def isSchemeByte (b : Nat) : Bool := isAlnumB b || b == 43 || b == 45 || b == 46

/-- ASCII lower-casing, as in `str.lower()` restricted to ASCII. -/
def toLowerB (b : Nat) : Nat := if 65 ≤ b && b ≤ 90 then b + 32 else b

/-- Index of the first byte satisfying `p`, like `str.find` for a byte class. -/
def firstIdx (p : Nat → Bool) : Bytes → Option Nat
  | [] => none
  | b :: bs => if p b then some 0 else (firstIdx p bs).map (· + 1)

/-- The scheme-splitting step of CPython `urlsplit`:
`i = url.find(':')`; accept iff `i > 0`, `url[0]` is an ASCII letter and all
of `url[:i]` lies in `scheme_chars`; the scheme is lower-cased. -/
def splitScheme (xs : Bytes) : Bytes × Bytes :=
  match firstIdx (· == 58) xs with
  | none => ([], xs)
  | some i =>
    if 0 < i && (xs.take i).all isSchemeByte &&
        (match xs.head? with | some b => isAlphaB b | none => false) then
      ((xs.take i).map toLowerB, xs.drop (i + 1))
    else ([], xs)

def isNetlocDelim (b : Nat) : Bool := b == 47 || b == 63 || b == 35

/-- The netloc-splitting step of CPython `urlsplit` (`_splitnetloc`): if the
remainder starts with `//`, the netloc extends to the first of `/?#`.
(The IPv6 bracket `ValueError` check of CPython is not modelled.) -/
def splitNetloc (xs : Bytes) : Bytes × Bytes :=
  if xs.take 2 == [47, 47] then
    let rest := xs.drop 2
    match firstIdx isNetlocDelim rest with
    | none => (rest, [])
    | some i => (rest.take i, rest.drop i)
  else ([], xs)

/-- `if '#' in url: url, fragment = url.split('#', 1)`. -/
def splitFragmentB (xs : Bytes) : Bytes × Bytes :=
  match firstIdx (· == 35) xs with
  | none => (xs, [])
  | some i => (xs.take i, xs.drop (i + 1))

/-- `if '?' in url: url, query = url.split('?', 1)`. -/
def splitQueryB (xs : Bytes) : Bytes × Bytes :=
  match firstIdx (· == 63) xs with
  | none => (xs, [])
  | some i => (xs.take i, xs.drop (i + 1))

structure SplitResult where
  scheme : Bytes
  netloc : Bytes
  path : Bytes
  query : Bytes
  fragment : Bytes
deriving DecidableEq, Repr

/-- CPython 3.11 `urllib.parse.urlsplit` (with `allow_fragments=True`):
remove `\t\r\n`, then split scheme, netloc, fragment, query in that order. -/
def urlsplitB (url0 : Bytes) : SplitResult :=
  let url1 := removeUnsafe url0
  let sr := splitScheme url1
  let nr := splitNetloc sr.2
  let uf := splitFragmentB nr.2
  let pq := splitQueryB uf.1
  ⟨sr.1, nr.1, pq.1, pq.2, uf.2⟩

/-- CPython `uses_netloc` (the schemes for which `urlunsplit` re-adds `//`). -/
def usesNetloc : List Bytes :=
  [[], asciiBytes "ftp", asciiBytes "http", asciiBytes "gopher", asciiBytes "nntp",
   asciiBytes "telnet", asciiBytes "imap", asciiBytes "wais", asciiBytes "file",
   asciiBytes "mms", asciiBytes "https", asciiBytes "shttp", asciiBytes "snews",
   asciiBytes "prospero", asciiBytes "rtsp", asciiBytes "rtspu", asciiBytes "rsync",
   asciiBytes "svn", asciiBytes "svn+ssh", asciiBytes "sftp", asciiBytes "nfs",
   asciiBytes "git", asciiBytes "git+ssh", asciiBytes "ws", asciiBytes "wss"]

/-- CPython 3.11 `urllib.parse.urlunsplit`. -/
def urlunsplitB (scheme netloc path query fragment : Bytes) : Bytes :=
  let url :=
    if !netloc.isEmpty ||
        (!scheme.isEmpty && usesNetloc.contains scheme && path.take 2 ≠ [47, 47]) then
      let p2 := if !path.isEmpty && path.head? ≠ some 47 then 47 :: path else path
      47 :: 47 :: (netloc ++ p2)
    else path
  let url2 := if !scheme.isEmpty then scheme ++ 58 :: url else url
  let url3 := if !query.isEmpty then url2 ++ 63 :: query else url2
  if !fragment.isEmpty then url3 ++ 35 :: fragment else url3

def isHexDigitB (b : Nat) : Bool :=
  (48 ≤ b && b ≤ 57) || (65 ≤ b && b ≤ 70) || (97 ≤ b && b ≤ 102)

def hexVal (b : Nat) : Nat :=
  if 48 ≤ b && b ≤ 57 then b - 48 else if 65 ≤ b && b ≤ 70 then b - 55 else b - 87

/-- CPython `urllib.parse.unquote` at byte level: each `%` followed by two hex
digits yields that byte; a `%` not starting a valid escape stays literal. -/
def pyUnquote : Bytes → Bytes
  | [] => []
  | 37 :: h1 :: h2 :: bs =>
    if isHexDigitB h1 && isHexDigitB h2 then
      (16 * hexVal h1 + hexVal h2) :: pyUnquote bs
    else 37 :: pyUnquote (h1 :: h2 :: bs)
  | b :: bs => b :: pyUnquote bs

/-- `.replace('+', ' ')`, done by `parse_qsl` before unquoting. -/
def plusToSpace (xs : Bytes) : Bytes := xs.map (fun b => if b == 43 then 32 else b)

def unqPlus (xs : Bytes) : Bytes := pyUnquote (plusToSpace xs)

/-- Python `str.split(sep)` for a one-byte separator (`"".split(sep) = [""]`). -/
def splitOnB (sep : Nat) : Bytes → List Bytes
  | [] => [[]]
  | b :: bs =>
    if b == sep then [] :: splitOnB sep bs
    else match splitOnB sep bs with
      | [] => [[b]]
      | h :: t => (b :: h) :: t

/-- Python `str.split(sep, 1)` when the separator occurs. -/
def splitFirst (sep : Nat) (xs : Bytes) : Option (Bytes × Bytes) :=
  match firstIdx (· == sep) xs with
  | none => none
  | some i => some (xs.take i, xs.drop (i + 1))

/-- CPython `parse_qsl(qs, keep_blank_values=True)`: split on `&`, skip empty
fields, split each field at the first `=` (a field with no `=` keeps a blank
value), `+`→space then percent-decode name and value. -/
def parseQsl (qs : Bytes) : List (Bytes × Bytes) :=
  let pieces := if qs.isEmpty then [] else splitOnB 38 qs
  pieces.filterMap (fun nv =>
    if nv.isEmpty then none
    else some (match splitFirst 61 nv with
      | some kv => (unqPlus kv.1, unqPlus kv.2)
      | none => (unqPlus nv, [])))

/-- CPython `_ALWAYS_SAFE` (with `safe=''`): alphanumerics and `_.-~`. -/
def isSafeByte (b : Nat) : Bool := isAlnumB b || b == 95 || b == 46 || b == 45 || b == 126

def hexDigitU (n : Nat) : Nat := if n < 10 then 48 + n else 55 + n

/-- CPython `quote_plus` on one byte: safe bytes pass, space becomes `+`,
every other byte becomes `%XX` (uppercase hex). -/
def quotePlusByte (b : Nat) : Bytes :=
  if isSafeByte b then [b]
  else if b == 32 then [43]
  else [37, hexDigitU (b / 16 % 16), hexDigitU (b % 16)]

def quotePlus (xs : Bytes) : Bytes := xs.foldr (fun b acc => quotePlusByte b ++ acc) []

def joinSep (sep : Nat) : List Bytes → Bytes
  | [] => []
  | [x] => x
  | x :: y :: t => x ++ sep :: joinSep sep (y :: t)

/-- CPython `urlencode(query, doseq=True)` for string pairs:
`'&'.join(quote_plus(k) + '=' + quote_plus(v))`. -/
def urlencodeB (l : List (Bytes × Bytes)) : Bytes :=
  joinSep 38 (l.map (fun kv => quotePlus kv.1 ++ 61 :: quotePlus kv.2))

/-- Lexicographic comparison of byte strings (Python `str` comparison; UTF-8
byte order agrees with code-point order). -/
def bytesLe : Bytes → Bytes → Bool
  | [], _ => true
  | _ :: _, [] => false
  | a :: xs, b :: ys => if a < b then true else if b < a then false else bytesLe xs ys

/-- Python tuple comparison on `(key, value)` pairs, as used by `q2.sort()`. -/
def pairLe (x y : Bytes × Bytes) : Bool :=
  if x.1 = y.1 then bytesLe x.2 y.2 else bytesLe x.1 y.1

def pairRel (x y : Bytes × Bytes) : Prop := pairLe x y = true

instance : DecidableRel pairRel :=
  fun x y => inferInstanceAs (Decidable (pairLe x y = true))

/-- `q2.sort()` — a stable sort by the tuple order. -/
def sortPairs (l : List (Bytes × Bytes)) : List (Bytes × Bytes) :=
  List.insertionSort pairRel l

/-- `LocalStorage.DROP_QUERY_KEYS` (src/storage/local.py lines 49–53). -/
def dropQueryKeys : List Bytes :=
  [asciiBytes "_", asciiBytes "ts", asciiBytes "timestamp", asciiBytes "t",
   asciiBytes "v", asciiBytes "ver", asciiBytes "version",
   asciiBytes "cb", asciiBytes "cachebust", asciiBytes "cachebuster",
   asciiBytes "nocache", asciiBytes "rnd", asciiBytes "random",
   asciiBytes "utm_source", asciiBytes "utm_medium", asciiBytes "utm_campaign",
   asciiBytes "utm_term", asciiBytes "utm_content"]

/-- The body of `LocalStorage._normalize_pdf_url` after the emptiness check:
split the URL, parse the query, drop deny-listed keys (lower-cased), sort the
remaining pairs, re-encode, and re-serialize without the fragment. -/
def normalizePdfCore (u : Bytes) : Bytes :=
  let parts := urlsplitB u
  let q := parseQsl parts.query
  let q2 := q.filter (fun kv => !(dropQueryKeys.contains (kv.1.map toLowerB)))
  let q2s := sortPairs q2
  let newQuery := urlencodeB q2s
  urlunsplitB parts.scheme parts.netloc parts.path newQuery []

/-- `LocalStorage._normalize_pdf_url` (src/storage/local.py lines 127–147). -/
def normalizePdfUrl (pdfUrl : Bytes) : Bytes :=
  let u := pyStrip pdfUrl
  if u.isEmpty then u else normalizePdfCore u

/-- A Python value that is either `None` or a `str`, for the claims about the
`None` behaviour of `_normalize_pdf_url`. -/
inductive PyVal where
  | pynone : PyVal
  | pystr : Bytes → PyVal
deriving DecidableEq, Repr

/-- `_normalize_pdf_url` at the Python-value level: the argument may be
`None`; `(pdf_url or "")` coerces `None` to the empty string, and every
return statement of the function returns a `str`. -/
def normalizePdfUrlV (x : PyVal) : PyVal :=
  .pystr (normalizePdfUrl (match x with | .pynone => [] | .pystr s => s))

/-! ### SHA-1 (`hashlib.sha1(...).hexdigest()`), as a pure function on bytes -/

def rotl32 (n x : Nat) : Nat := x % 2 ^ (32 - n) * 2 ^ n + x / 2 ^ (32 - n)

def not32 (x : Nat) : Nat := 4294967295 - x

def sha1F (i b c d : Nat) : Nat :=
  if i < 20 then (b &&& c) ||| (not32 b &&& d)
  else if i < 40 then b ^^^ c ^^^ d
  else if i < 60 then (b &&& c) ||| (b &&& d) ||| (c &&& d)
  else b ^^^ c ^^^ d

def sha1K (i : Nat) : Nat :=
  if i < 20 then 0x5A827999 else if i < 40 then 0x6ED9EBA1
  else if i < 60 then 0x8F1BBCDC else 0xCA62C1D6

/-- Big-endian 32-bit words from bytes. -/
def bytesToWords : Bytes → List Nat
  | b0 :: b1 :: b2 :: b3 :: rest => (((b0 * 256 + b1) * 256 + b2) * 256 + b3) :: bytesToWords rest
  | _ => []

def chunks64 : Bytes → List Bytes
  | [] => []
  | b :: bs => ((b :: bs).take 64) :: chunks64 ((b :: bs).drop 64)
termination_by xs => xs.length
decreasing_by simp [List.length_drop]; omega

/-- Merkle–Damgård padding: `0x80`, zeros to 56 mod 64, 8-byte big-endian bit length. -/
def sha1Pad (msg : Bytes) : Bytes :=
  let L := msg.length
  let padLen := (119 - L % 64) % 64
  let lenBits := L * 8 % 2 ^ 64
  msg ++ 128 :: List.replicate padLen 0 ++
    [lenBits / 2 ^ 56 % 256, lenBits / 2 ^ 48 % 256, lenBits / 2 ^ 40 % 256,
     lenBits / 2 ^ 32 % 256, lenBits / 2 ^ 24 % 256, lenBits / 2 ^ 16 % 256,
     lenBits / 2 ^ 8 % 256, lenBits % 256]

/-- Extend 16 message words to the 80-word schedule. -/
def sha1Schedule (ws : List Nat) : List Nat :=
  (List.range 80).foldl (fun acc i =>
    if i < 16 then acc ++ [ws.getD i 0]
    else acc ++ [rotl32 1 (acc.getD (i - 3) 0 ^^^ acc.getD (i - 8) 0 ^^^
                           acc.getD (i - 14) 0 ^^^ acc.getD (i - 16) 0)]) []

def sha1Compress (h : Nat × Nat × Nat × Nat × Nat) (chunk : Bytes) :
    Nat × Nat × Nat × Nat × Nat :=
  let w := sha1Schedule (bytesToWords chunk)
  let st := (List.range 80).foldl (fun st i =>
    let t := (rotl32 5 st.1 + sha1F i st.2.1 st.2.2.1 st.2.2.2.1 + st.2.2.2.2 +
              sha1K i + w.getD i 0) % 4294967296
    (t, st.1, rotl32 30 st.2.1, st.2.2.1, st.2.2.2.1)) h
  ((h.1 + st.1) % 4294967296, (h.2.1 + st.2.1) % 4294967296,
   (h.2.2.1 + st.2.2.1) % 4294967296, (h.2.2.2.1 + st.2.2.2.1) % 4294967296,
   (h.2.2.2.2 + st.2.2.2.2) % 4294967296)

def sha1Words (msg : Bytes) : List Nat :=
  let h := (chunks64 (sha1Pad msg)).foldl sha1Compress
    (0x67452301, 0xEFCDAB89, 0x98BADCFE, 0x10325476, 0xC3D2E1F0)
  [h.1, h.2.1, h.2.2.1, h.2.2.2.1, h.2.2.2.2]

def hexDigitL (n : Nat) : Nat := if n < 10 then 48 + n else 87 + n

def wordToHex8 (w : Nat) : Bytes :=
  [hexDigitL (w / 16 ^ 7 % 16), hexDigitL (w / 16 ^ 6 % 16), hexDigitL (w / 16 ^ 5 % 16),
   hexDigitL (w / 16 ^ 4 % 16), hexDigitL (w / 16 ^ 3 % 16), hexDigitL (w / 16 ^ 2 % 16),
   hexDigitL (w / 16 % 16), hexDigitL (w % 16)]

/-- `hashlib.sha1(x).hexdigest()` — 40 lowercase hex characters. -/
def sha1Hex (msg : Bytes) : Bytes := ((sha1Words msg).map wordToHex8).flatten

/-! ### Document identifiers -/

/-- `_make_doc_id(source, url) = hashlib.sha1(f"{source}|{url}".encode()).hexdigest()`
(src/parsers/acpr.py lines 17–18; same pattern in most harvesters). -/
def makeDocId (source url : Bytes) : Bytes := sha1Hex (source ++ 124 :: url)

/-- `LocalStorage._pdf_key`: sha1 hexdigest of the canonicalized URL. -/
def pdfKeyB (url : Bytes) : Bytes := sha1Hex (normalizePdfUrl url)

/-- Decimal rendering of a natural number, as Python `str(int)` / f-strings
(`fuel`-indexed so that the definition reduces structurally; `fuel = n`
always suffices since the recursion divides by 10). -/
def decDigitsAux : Nat → Nat → Bytes
  | 0, n => [48 + n % 10]
  | fuel + 1, n => if n < 10 then [48 + n] else decDigitsAux fuel (n / 10) ++ [48 + n % 10]

def decDigits (n : Nat) : Bytes := decDigitsAux n n

/-- NBKZ document id (src/parsers/nbkz_kazakhstan.py line 198):
`f"{pub.date().isoformat()}_{abs(hash(url)) % (10**10)}"`.  The parameter
`urlHash` stands for `abs(hash(url))`: CPython's built-in string hash, whose
value depends on the per-process `PYTHONHASHSEED` salt, so it is *not* a
run-independent function of the URL. -/
def nbkzDocId (dateIso : Bytes) (urlHash : Nat) : Bytes :=
  dateIso ++ 95 :: decDigits (urlHash % 10000000000)

/-- 40-character lowercase-hex test, the shape required of a stable id. -/
def isFixedHex40 (xs : Bytes) : Bool :=
  xs.length == 40 && xs.all (fun b => isDigitB b || (97 ≤ b && b ≤ 102))

/-! ### `_safe_filename` (src/storage/local.py lines 21–38) -/

/-- Python regex `\s` (ASCII part). -/
def isWsB (b : Nat) : Bool := b == 32 || (9 ≤ b && b ≤ 13)

/-- Regex `\w` with `re.UNICODE`: ASCII alphanumerics, underscore; bytes ≥ 128
(parts of non-ASCII letters) are treated as word bytes. -/
def isWordByte (b : Nat) : Bool := isAlnumB b || b == 95 || 128 ≤ b

/-- The class `[^\w.\-() ]` complement: bytes the regex keeps. -/
def isAllowedFileByte (b : Nat) : Bool :=
  isWordByte b || b == 46 || b == 45 || b == 40 || b == 41 || b == 32

/-- `re.sub(class+, rep, …)`: each maximal run of bytes in the class becomes
one replacement byte (`inRun` records whether the previous byte was in the
class, so one `rep` is emitted per run). -/
def collapseRunsAux (bad : Nat → Bool) (rep : Nat) : Bool → Bytes → Bytes
  | _, [] => []
  | inRun, b :: bs =>
    if bad b then
      if inRun then collapseRunsAux bad rep true bs
      else rep :: collapseRunsAux bad rep true bs
    else b :: collapseRunsAux bad rep false bs

def collapseRuns (bad : Nat → Bool) (rep : Nat) (xs : Bytes) : Bytes :=
  collapseRunsAux bad rep false xs

/-- Lines 23–27 of `_safe_filename`: strip, percent-decode, drop NUL bytes,
replace runs of disallowed bytes by `_`, collapse whitespace runs, strip. -/
def sanitizeName (name : Bytes) : Bytes :=
  let n1 := pyStrip name
  let n2 := pyUnquote n1
  let n3 := n2.filter (fun b => b ≠ 0)
  let n4 := collapseRuns (fun b => !isAllowedFileByte b) 95 n3
  let n5 := collapseRuns isWsB 32 n4
  pyStrip n5

/-- `name.rsplit(".", 1)` when a dot occurs: (before last dot, after last dot). -/
def lastDotSplit (xs : Bytes) : Option (Bytes × Bytes) :=
  match firstIdx (· == 46) xs.reverse with
  | none => none
  | some i => some (xs.take (xs.length - 1 - i), xs.drop (xs.length - i))

/-- Python slice `s[:k]` for an `int` bound (negative bounds count from the end). -/
def pySliceTo (xs : Bytes) (k : Int) : Bytes :=
  if k < 0 then xs.take (xs.length - k.natAbs) else xs.take k.toNat

/-- `_safe_filename(name, max_len)`. -/
def safeFilenameB (name : Bytes) (maxLen : Nat) : Bytes :=
  let s := sanitizeName name
  if maxLen < s.length then
    match lastDotSplit s with
    | some be => pySliceTo be.1 ((maxLen : Int) - ((46 :: be.2).length : Int)) ++ 46 :: be.2
    | none => pySliceTo s (maxLen : Int)
  else s

/-! ### `_pdf_name_from_url` (src/storage/local.py lines 153–184) -/

def startsWithB : Bytes → Bytes → Bool
  | [], _ => true
  | _ :: _, [] => false
  | a :: xs, b :: ys => a == b && startsWithB xs ys

def hasSubB (needle : Bytes) : Bytes → Bool
  | [] => needle.isEmpty
  | b :: bs => startsWithB needle (b :: bs) || hasSubB needle bs

def endsWithB (tl hay : Bytes) : Bool := startsWithB tl.reverse hay.reverse

/-- `LocalStorage.BAD_LAST_SEGMENTS`. -/
def badLastSegments : List Bytes :=
  [[], asciiBytes "download", asciiBytes "file", asciiBytes "get", asciiBytes "print",
   asciiBytes "view", asciiBytes "open", asciiBytes "attachment", asciiBytes "document",
   asciiBytes "content", asciiBytes "pdf", asciiBytes "export"]

def isPlainNameByte (b : Nat) : Bool := isAlnumB b || b == 46 || b == 95 || b == 45

/-- `re.fullmatch(r"[A-Za-z0-9][A-Za-z0-9._\-]{2,}", last)`. -/
def plainNameMatch (xs : Bytes) : Bool :=
  match xs with
  | [] => false
  | b :: bs => isAlnumB b && bs.all isPlainNameByte && 2 ≤ bs.length

/-- `LocalStorage._pdf_name_from_url` (total: the `except` path is unreachable
in the byte model). -/
def pdfNameFromUrl (pdfUrl : Bytes) : Option Bytes :=
  let u := pyStrip pdfUrl
  if u.isEmpty then none
  else
    let parts := urlsplitB u
    let lastSeg := pyStrip (pyUnquote ((splitOnB 47 parts.path).getLast?.getD []))
    if endsWithB (asciiBytes ".pdf") (lastSeg.map toLowerB) && 5 ≤ lastSeg.length then
      some (safeFilenameB lastSeg 160)
    else if hasSubB (asciiBytes "/printpdf/") parts.path &&
        (!lastSeg.isEmpty && !(badLastSegments.contains (lastSeg.map toLowerB))) then
      some (safeFilenameB (lastSeg ++ asciiBytes ".pdf") 160)
    else if (!lastSeg.isEmpty && !(badLastSegments.contains (lastSeg.map toLowerB))) &&
        plainNameMatch lastSeg then
      some (safeFilenameB (lastSeg ++ asciiBytes ".pdf") 160)
    else none

/-! ### The record store (`records.jsonl` + sqlite `seen` table) -/

/-- `DocumentRecord` (src/parsers/base.py).  `meta` is modelled as a finite
association list (`Dict[str, Any]` restricted to string values). -/
structure DocumentRecord where
  doc_id : String
  source : String
  url : String
  title : String
  date : Option String
  language : Option String
  doc_type : String
  text : String
  pdf_urls : List String
  meta : List (String × String)
deriving DecidableEq, Repr

/-- The durable state touched by `put_record` / `exists` / `mark_seen`:
`seen` is the per-source sqlite `seen(doc_id)` table (keyed by source), and
`recLog` the per-source `records.jsonl` files — one list entry per appended
line, tagged with its source. -/
structure DocStore where
  seen : List (String × String)
  recLog : List (String × DocumentRecord)
deriving DecidableEq, Repr

def emptyDocStore : DocStore := ⟨[], []⟩

/-- `LocalStorage.exists(source, doc_id)`. -/
def existsDoc (st : DocStore) (source docId : String) : Bool :=
  st.seen.contains (source, docId)

/-- `LocalStorage.mark_seen` — sqlite `INSERT OR IGNORE`. -/
def markSeen (st : DocStore) (source docId : String) : DocStore :=
  if st.seen.contains (source, docId) then st
  else { st with seen := st.seen ++ [(source, docId)] }

/-- `LocalStorage.put_record` (src/storage/local.py lines 105–119): append one
serialized line to the per-source log, then mark the document seen. -/
def putRecord (st : DocStore) (r : DocumentRecord) : DocStore :=
  markSeen { st with recLog := st.recLog ++ [(r.source, r)] } r.source r.doc_id

/-- Number of log lines carrying a given (source, doc_id). -/
def countRecords (st : DocStore) (source docId : String) : Nat :=
  (st.recLog.filter (fun e => e.1 == source && e.2.doc_id == docId)).length

/-- The two externally visible effects of `put_record`, in program order
(file append on line 109, index mark on line 119). -/
inductive PutEffect where
  | appendLine (r : DocumentRecord)
  | markSeenEff (source docId : String)
deriving DecidableEq, Repr

def putRecordEffects (r : DocumentRecord) : List PutEffect :=
  [.appendLine r, .markSeenEff r.source r.doc_id]

def applyEffect (st : DocStore) : PutEffect → DocStore
  | .appendLine r => { st with recLog := st.recLog ++ [(r.source, r)] }
  | .markSeenEff s i => markSeen st s i

def applyEffects (st : DocStore) (effs : List PutEffect) : DocStore :=
  effs.foldl applyEffect st

/-- The next run re-persisting a candidate record: every harvester checks
`storage.exists(...)` and skips, otherwise the record is put again. -/
def rerunPersist (st : DocStore) (r : DocumentRecord) : DocStore :=
  if existsDoc st r.source r.doc_id then st else putRecord st r

/-! ### The scheduler pass (`run_once`, src/scheduler.py lines 154–191) -/

/-- One harvester as seen by one `run_once` pass: its name and the outcome of
its `fetch_range` call (`error` = an exception escaped it). -/
structure ParserRun where
  name : String
  fetched : Except String (List DocumentRecord)

/-- The inner loop of `run_once`: each record is saved inside its own
`try/except`; `saveOk` tells which `put_record` calls raise (I/O failure). -/
def processRecords (saveOk : DocumentRecord → Bool) (st : DocStore)
    (recs : List DocumentRecord) : DocStore × Nat :=
  recs.foldl (fun acc r => if saveOk r then (putRecord acc.1 r, acc.2 + 1) else acc) (st, 0)

/-- `run_once`, with the per-harvester failure boundary: a harvester whose
`fetch_range` raised contributes nothing and the loop continues. -/
def runOnce (saveOk : DocumentRecord → Bool) (parsers : List ParserRun)
    (st : DocStore) : DocStore × Nat :=
  parsers.foldl (fun acc p =>
    match p.fetched with
    | .error _ => acc
    | .ok recs =>
      let pr := processRecords saveOk acc.1 recs
      (pr.1, acc.2 + pr.2)) (st, 0)

/-! ### `next_run_at` (src/scheduler.py lines 136–142)

Naive `datetime`s are modelled as microseconds from a Monday-midnight epoch;
`.weekday()` is day-index mod 7 (Monday = 0), `.replace(hour, minute,
second=0, microsecond=0)` keeps the day and sets the time of day, and
`timedelta(days=d)` adds `d * usecPerDay` — exactly naive-datetime
arithmetic. -/

def usecPerDay : Nat := 86400000000

def nextRunAt (weekday hour minute : Nat) (now : Nat) : Nat :=
  let target := now / usecPerDay * usecPerDay + (hour * 60 + minute) * 60 * 1000000
  let daysAhead := (weekday + 7 - target / usecPerDay % 7) % 7
  if daysAhead = 0 ∧ target ≤ now then target + 7 * usecPerDay
  else target + daysAhead * usecPerDay

/-! ### The attachment store (`put_pdf`, src/storage/local.py lines 209–244) -/

def assocFind {α β : Type} [DecidableEq α] : List (α × β) → α → Option β
  | [], _ => none
  | (a, b) :: t, k => if a = k then some b else assocFind t k

/-- Durable attachment state: the per-source sqlite `pdf_seen(pdf_key, path)`
table (keyed here by (source, key)) and the filesystem (path ↦ bytes).
Stored paths are `<source>/pdf/<name>` (the storage root directory is left
implicit). -/
structure PdfStore where
  pdfSeen : List ((Bytes × Bytes) × Bytes)
  fs : List (Bytes × Bytes)
deriving DecidableEq, Repr

def emptyPdfStore : PdfStore := ⟨[], []⟩

/-- `LocalStorage._pdf_seen_path`. -/
def pdfSeenPath (st : PdfStore) (source key : Bytes) : Option Bytes :=
  assocFind st.pdfSeen (source, key)

def fsExistsP (st : PdfStore) (path : Bytes) : Bool := (assocFind st.fs path).isSome

def fsRead (st : PdfStore) (path : Bytes) : Option Bytes := assocFind st.fs path

def fsWriteP (st : PdfStore) (path content : Bytes) : PdfStore :=
  { st with fs := st.fs ++ [(path, content)] }

/-- The `INSERT OR IGNORE INTO pdf_seen` step. -/
def pdfMarkSeen (st : PdfStore) (source key path : Bytes) : PdfStore :=
  if (assocFind st.pdfSeen (source, key)).isSome then st
  else { st with pdfSeen := st.pdfSeen ++ [((source, key), path)] }

/-- Lines 223–244 of `put_pdf`: derive a name, write the file only if the
path does not already exist, record (key → path) insert-if-absent. -/
def putPdfWrite (st : PdfStore) (source docId pdfUrl content : Bytes) :
    PdfStore × Bytes :=
  let name := (pdfNameFromUrl pdfUrl).getD (safeFilenameB (docId ++ asciiBytes ".pdf") 160)
  let path := source ++ asciiBytes "/pdf/" ++ name
  let st1 := if fsExistsP st path then st else fsWriteP st path content
  let st2 := pdfMarkSeen st1 source (pdfKeyB pdfUrl) path
  (st2, path)

/-- `LocalStorage.put_pdf`: if the key was seen and the recorded path still
exists on disk, return it; otherwise write. -/
def putPdf (st : PdfStore) (source docId pdfUrl content : Bytes) :
    PdfStore × Bytes :=
  match pdfSeenPath st source (pdfKeyB pdfUrl) with
  | some prev =>
    if !prev.isEmpty && fsExistsP st prev then (st, prev)
    else putPdfWrite st source docId pdfUrl content
  | none => putPdfWrite st source docId pdfUrl content

/-! ### Sample inputs used by counterexamples and witnesses -/

def recA : DocumentRecord :=
  { doc_id := "d1", source := "boe", url := "https://x/a", title := "t1",
    date := some "2024-01-03", language := some "en", doc_type := "Press Release",
    text := "body", pdf_urls := [], meta := [] }

def recB : DocumentRecord :=
  { doc_id := "d2", source := "esrb", url := "https://x/b", title := "t2",
    date := none, language := some "en", doc_type := "Publication",
    text := "", pdf_urls := ["https://x/b.pdf"], meta := [("country", "EU")] }

def recC : DocumentRecord :=
  { doc_id := "d3", source := "acpr", url := "https://x/c", title := "t3",
    date := some "2024-01-05", language := some "fr", doc_type := "Decision",
    text := "corps", pdf_urls := [], meta := [] }

def pGoodBoe : ParserRun := ⟨"boe", Except.ok [recA]⟩

def pBadAcpr : ParserRun := ⟨"acpr", Except.error "boom"⟩

def pGoodEsrb : ParserRun := ⟨"esrb", Except.ok [recB]⟩

/-- `"." + ext` of the sanitized name when it has a dot, else empty: the part
of `_safe_filename`'s input that truncation preserves. -/
def extOf (s : Bytes) : Bytes :=
  match lastDotSplit s with
  | some be => 46 :: be.2
  | none => []

/-- The shape of a scheme produced by `splitScheme`: nonempty, leading ASCII
letter, scheme bytes only, already lower-case. -/
def validLowerScheme (s : Bytes) : Bool :=
  match s with
  | [] => false
  | b :: bs => isAlphaB b && (b :: bs).all isSchemeByte && ((b :: bs).map toLowerB == b :: bs)

/-- Byte classes that can appear in `urlencodeB` output: always-safe bytes,
`+`, `%`, `=`, `&`. -/
def isEncOut (b : Nat) : Bool :=
  isSafeByte b || b == 43 || b == 37 || b == 61 || b == 38

/-! ## Supporting lemmas -/

lemma existsDoc_markSeen_self (st : DocStore) (s i : String) :
    existsDoc (markSeen st s i) s i = true := by
  unfold existsDoc markSeen
  by_cases h : (s, i) ∈ st.seen <;> simp [h]

lemma markSeen_recLog (st : DocStore) (s i : String) :
    (markSeen st s i).recLog = st.recLog := by
  unfold markSeen
  by_cases h : (s, i) ∈ st.seen <;> simp [h]

/-- C1: falsified as stated — `put_record` never checks `exists`, so a second
`put_record` with the same (source, doc_id) appends a second line to the
per-source record log: starting from an empty store, two identical
`put_record` calls leave two log entries, not one. -/
theorem c1_counterexample :
    existsDoc (putRecord emptyDocStore recA) recA.source recA.doc_id = true ∧
    countRecords (putRecord (putRecord emptyDocStore recA) recA)
      recA.source recA.doc_id ≠ 1 := by
  constructor
  · decide
  · decide

/-- C1 (amended): `put_record(r)` unconditionally appends one line to the
per-source record log — even when `exists(r.source, r.doc_id)` is already
true — and `exists` returns true from the first append on; deduplication is
the callers' responsibility. -/
theorem c1_put_record_appends (st : DocStore) (r : DocumentRecord) :
    existsDoc (putRecord st r) r.source r.doc_id = true ∧
    (putRecord st r).recLog = st.recLog ++ [(r.source, r)] := by
  constructor
  · exact existsDoc_markSeen_self _ _ _
  · simpa using markSeen_recLog { st with recLog := st.recLog ++ [(r.source, r)] } r.source r.doc_id

/-- C2: falsified as stated — `put_record` appends to `records.jsonl` first
(line 109) and marks the index second (line 119).  If the process crashes
after the first effect, the next run sees `exists = false`, re-persists the
record, and the log holds the same (source, doc_id) twice. -/
theorem c2_counterexample :
    countRecords
      (rerunPersist (applyEffects emptyDocStore ((putRecordEffects recC).take 1)) recC)
      recC.source recC.doc_id = 2 := by
  decide

/-- C2 (amended): `put_record`'s two effects run append-first, mark-second.
A crash never silently drops the record — after any crash prefix, a re-run
leaves it in the log at least once — but a crash exactly between the two
effects makes the re-run produce a duplicate log line (count 2). -/
theorem c2_crash_rerun (r : DocumentRecord) (k : Nat) (hk : k ≤ 2) :
    1 ≤ countRecords
        (rerunPersist (applyEffects emptyDocStore ((putRecordEffects r).take k)) r)
        r.source r.doc_id ∧
    (k = 1 →
      countRecords
        (rerunPersist (applyEffects emptyDocStore ((putRecordEffects r).take k)) r)
        r.source r.doc_id = 2) := by
  interval_cases k <;>
    simp [putRecordEffects, applyEffects, applyEffect, rerunPersist, existsDoc,
      markSeen, putRecord, countRecords, emptyDocStore, List.contains]

/-- C2 witness: the crash point between append and mark, on a concrete record. -/
theorem c2_crash_rerun_witness :
    (1 : Nat) ≤ 2 ∧
    (1 ≤ countRecords
        (rerunPersist (applyEffects emptyDocStore ((putRecordEffects recB).take 1)) recB)
        recB.source recB.doc_id ∧
     (1 = 1 →
       countRecords
         (rerunPersist (applyEffects emptyDocStore ((putRecordEffects recB).take 1)) recB)
         recB.source recB.doc_id = 2)) :=
  ⟨by decide, c2_crash_rerun recB 1 (by decide)⟩

/-- C5: cross-source and per-record isolation in `run_once`.  A harvester
whose `fetch_range` raises contributes nothing, and removing it from the
roster changes neither the final store nor the aggregate total — every later
harvester is still invoked, its records persisted and counted.  Likewise a
`put_record` that raises for one record leaves the processing of the
remaining records of that harvester unchanged. -/
theorem c5_run_once_isolation :
    (∀ (saveOk : DocumentRecord → Bool) (ps1 ps2 : List ParserRun) (A : ParserRun)
       (e : String) (st : DocStore), A.fetched = Except.error e →
       runOnce saveOk (ps1 ++ A :: ps2) st = runOnce saveOk (ps1 ++ ps2) st) ∧
    (∀ (saveOk : DocumentRecord → Bool) (r : DocumentRecord)
       (rs : List DocumentRecord) (st : DocStore), saveOk r = false →
       processRecords saveOk st (r :: rs) = processRecords saveOk st rs) := by
  constructor
  · intro saveOk ps1 ps2 A e st hA
    unfold runOnce
    rw [List.foldl_append, List.foldl_append, List.foldl_cons, hA]
  · intro saveOk r rs st hr
    unfold processRecords
    rw [List.foldl_cons, hr]
    simp

/-- C5 witness: a roster `[good, crashing, good]` yields the same run as
`[good, good]`, and one failing record is skipped. -/
theorem c5_run_once_isolation_witness :
    runOnce (fun _ => true) ([pGoodBoe] ++ pBadAcpr :: [pGoodEsrb]) emptyDocStore =
      runOnce (fun _ => true) ([pGoodBoe] ++ [pGoodEsrb]) emptyDocStore ∧
    processRecords (fun _ => false) emptyDocStore (recA :: [recB]) =
      processRecords (fun _ => false) emptyDocStore [recB] :=
  ⟨c5_run_once_isolation.1 (fun _ => true) [pGoodBoe] [pGoodEsrb] pBadAcpr "boom"
      emptyDocStore rfl,
   c5_run_once_isolation.2 (fun _ => false) recA [recB] emptyDocStore rfl⟩

/-- C6: falsified as stated — `(pdf_url or "").strip()` coerces `None` to the
empty string, so `_normalize_pdf_url(None)` returns `""` (a `str`), not
`None`. -/
theorem c6_counterexample : normalizePdfUrlV PyVal.pynone ≠ PyVal.pynone := by
  decide

/-- C6 (amended): canonicalization maps the empty string to the empty string
unchanged, and maps `None` to the empty string (not `None`); neither input
raises. -/
theorem c6_empty_none (x : PyVal) :
    (x = PyVal.pystr [] ∨ x = PyVal.pynone) → normalizePdfUrlV x = PyVal.pystr [] := by
  rintro (rfl | rfl) <;> decide

/-- C6 witness: the `None` input. -/
theorem c6_empty_none_witness :
    (PyVal.pynone = PyVal.pystr [] ∨ PyVal.pynone = PyVal.pynone) ∧
    normalizePdfUrlV PyVal.pynone = PyVal.pystr [] :=
  ⟨Or.inr rfl, c6_empty_none PyVal.pynone (Or.inr rfl)⟩

/-- C10: `next_run_at(weekday, hour, minute)` (for valid arguments) returns a
time strictly after `now`, at most 7 days ahead, falling on the requested
weekday at exactly the requested hour and minute with seconds and
microseconds zero (times in microseconds, days of length `usecPerDay`,
weekday = day-index mod 7). -/
theorem c10_next_run_at (weekday hour minute now : Nat)
    (hw : weekday < 7) (hh : hour < 24) (hm : minute < 60) :
    now < nextRunAt weekday hour minute now ∧
    nextRunAt weekday hour minute now ≤ now + 7 * usecPerDay ∧
    nextRunAt weekday hour minute now / usecPerDay % 7 = weekday ∧
    nextRunAt weekday hour minute now % usecPerDay =
      (hour * 60 + minute) * 60 * 1000000 := by
  unfold nextRunAt usecPerDay
  dsimp only
  split <;> omega

/-- C10 witness: Monday 09:00 queried from a concrete Wednesday instant. -/
theorem c10_next_run_at_witness :
    (0 < 7 ∧ 9 < 24 ∧ 0 < 60) ∧
    (200000000000 < nextRunAt 0 9 0 200000000000 ∧
     nextRunAt 0 9 0 200000000000 ≤ 200000000000 + 7 * usecPerDay ∧
     nextRunAt 0 9 0 200000000000 / usecPerDay % 7 = 0 ∧
     nextRunAt 0 9 0 200000000000 % usecPerDay = (9 * 60 + 0) * 60 * 1000000) :=
  ⟨by omega,
   c10_next_run_at 0 9 0 200000000000 (by omega) (by omega) (by omega)⟩

lemma hexOk (n : Nat) :
    (isDigitB (hexDigitL (n % 16)) ||
      (97 ≤ hexDigitL (n % 16) && hexDigitL (n % 16) ≤ 102)) = true := by
  have h : n % 16 < 16 := Nat.mod_lt _ (by omega)
  unfold hexDigitL isDigitB
  split <;> simp <;> omega

lemma fixedHex_of_five (a b c d e : Nat) :
    isFixedHex40 ((([a, b, c, d, e]).map wordToHex8).flatten) = true := by
  simp [isFixedHex40, wordToHex8, hexOk]

lemma sha1Hex_shape (msg : Bytes) : isFixedHex40 (sha1Hex msg) = true := by
  unfold sha1Hex sha1Words
  dsimp only
  exact fixedHex_of_five _ _ _ _ _

/-- C3: the claim is right for sha1-based harvesters and wrong for NBKZ.
`_make_doc_id` (ACPR and most harvesters) is a pure function of the source
name and URL — hence identical across process runs — and always yields a
40-character lowercase-hex digest.  The NBKZ identifier
`f"{date}_{abs(hash(url)) % 10**10}"` is never a fixed-length hex string
(it contains `_`), and it varies with the value of the salted built-in
`hash`, shown here by two different hash values yielding two different
identifiers for the same date and URL. -/
theorem c3_doc_id_stability :
    (∀ source url : Bytes, isFixedHex40 (makeDocId source url) = true) ∧
    (∀ (dateIso : Bytes) (urlHash : Nat),
      isFixedHex40 (nbkzDocId dateIso urlHash) = false) ∧
    nbkzDocId (asciiBytes "2024-01-03") 1 ≠ nbkzDocId (asciiBytes "2024-01-03") 2 := by
  refine ⟨fun source url => sha1Hex_shape _, fun dateIso urlHash => ?_, by decide⟩
  have hmem : (95 : Nat) ∈ nbkzDocId dateIso urlHash := by simp [nbkzDocId]
  have hall : (nbkzDocId dateIso urlHash).all
      (fun b => isDigitB b || (97 ≤ b && b ≤ 102)) = false := by
    refine Bool.eq_false_iff.mpr (fun h => ?_)
    have := List.all_eq_true.mp h 95 hmem
    simp [isDigitB] at this
  unfold isFixedHex40
  rw [hall, Bool.and_false]

/-- C3 witness: a concrete source and URL for the sha1 half. -/
theorem c3_doc_id_stability_witness :
    isFixedHex40 (makeDocId (asciiBytes "acpr") (asciiBytes "https://x/a")) = true :=
  c3_doc_id_stability.1 (asciiBytes "acpr") (asciiBytes "https://x/a")

lemma firstIdx_none_of_all {p : Nat → Bool} {xs : Bytes}
    (h : ∀ a ∈ xs, p a = false) : firstIdx p xs = none := by
  induction xs with
  | nil => rfl
  | cons x xs ih =>
    have hx : p x = false := h x (by simp)
    rw [firstIdx, hx]
    simp [ih (fun a ha => h a (by simp [ha]))]

lemma firstIdx_all_of_none {p : Nat → Bool} {xs : Bytes}
    (h : firstIdx p xs = none) : ∀ a ∈ xs, p a = false := by
  induction xs with
  | nil => simp
  | cons x xs ih =>
    rw [firstIdx] at h
    by_cases hx : p x
    · simp [hx] at h
    · intro a ha
      rcases List.mem_cons.mp ha with rfl | ha2
      · exact Bool.eq_false_iff.mpr hx
      · rw [if_neg hx] at h
        exact ih (by simpa using h) a ha2

lemma firstIdx_decomp {p : Nat → Bool} {xs : Bytes} {i : Nat}
    (h : firstIdx p xs = some i) :
    ∃ l1 b l2, xs = l1 ++ b :: l2 ∧ l1.length = i ∧ p b = true ∧
      ∀ a ∈ l1, p a = false := by
  induction xs generalizing i with
  | nil => simp [firstIdx] at h
  | cons x xs ih =>
    rw [firstIdx] at h
    by_cases hx : p x
    · rw [if_pos hx] at h
      obtain rfl : (0 : Nat) = i := Option.some.inj h
      exact ⟨[], x, xs, rfl, rfl, hx, by simp⟩
    · rw [if_neg hx] at h
      obtain ⟨j, hj, hji⟩ := Option.map_eq_some'.mp h
      obtain ⟨l1, b, l2, rfl, hlen, hb, hall⟩ := ih hj
      refine ⟨x :: l1, b, l2, rfl, by simp [hlen, hji], hb, ?_⟩
      intro a ha
      rcases List.mem_cons.mp ha with rfl | ha2
      · exact Bool.eq_false_iff.mpr hx
      · exact hall a ha2

lemma firstIdx_append_some {p : Nat → Bool} (l1 : Bytes) (b : Nat) (l2 : Bytes)
    (h1 : ∀ a ∈ l1, p a = false) (hb : p b = true) :
    firstIdx p (l1 ++ b :: l2) = some l1.length := by
  induction l1 with
  | nil => simp [firstIdx, hb]
  | cons x xs ih =>
    have hx : p x = false := h1 x (by simp)
    rw [List.cons_append, firstIdx, hx]
    simp [ih (fun a ha => h1 a (by simp [ha]))]

lemma take_of_decomp {l1 : Bytes} {b : Nat} {l2 : Bytes} :
    (l1 ++ b :: l2).take l1.length = l1 :=
  List.take_left l1 (b :: l2)

lemma drop_of_decomp {l1 : Bytes} {b : Nat} {l2 : Bytes} :
    (l1 ++ b :: l2).drop (l1.length + 1) = l2 := by
  have : l1 ++ b :: l2 = (l1 ++ [b]) ++ l2 := by simp
  rw [this]
  have hlen : l1.length + 1 = (l1 ++ [b]).length := by simp
  rw [hlen, List.drop_left]

lemma startsWithB_append_self (xs ys : Bytes) : startsWithB xs (xs ++ ys) = true := by
  induction xs with
  | nil => rfl
  | cons x xs ih => simp [startsWithB, ih]

lemma endsWithB_append (x t : Bytes) : endsWithB t (x ++ t) = true := by
  unfold endsWithB
  rw [List.reverse_append]
  exact startsWithB_append_self _ _

lemma lastDotSplit_spec {s b e : Bytes} (h : lastDotSplit s = some (b, e)) :
    s = b ++ 46 :: e := by
  unfold lastDotSplit at h
  cases hidx : firstIdx (· == 46) s.reverse with
  | none => rw [hidx] at h; exact absurd h (by simp)
  | some i =>
    rw [hidx] at h
    simp only [Option.some.injEq, Prod.mk.injEq] at h
    obtain ⟨hb, he⟩ := h
    obtain ⟨l1, c, l2, hdec, hlen, hc, -⟩ := firstIdx_decomp hidx
    have hc46 : c = 46 := by simpa using hc
    subst hc46
    subst hlen
    have hs : s = l2.reverse ++ 46 :: l1.reverse := by
      have := congrArg List.reverse hdec
      simpa [List.reverse_append] using this
    have hlen2 : s.length = l2.length + 1 + l1.length := by
      rw [hs]
      simp only [List.length_append, List.length_reverse, List.length_cons]
      omega
    have e1 : s.length - 1 - l1.length = l2.reverse.length := by
      simp only [List.length_reverse]
      omega
    have e2 : s.length - l1.length = l2.reverse.length + 1 := by
      simp only [List.length_reverse]
      omega
    rw [← hb, ← he, e1, e2, hs, List.take_left,
      @drop_of_decomp l2.reverse 46 l1.reverse]

/-- C9: falsified as stated.  (1) When the part after the last dot is longer
than `max_len`, the truncation slice `base[:max_len - len(ext)]` gets a
negative bound and the whole extension is still appended:
`_safe_filename("a.xyzw", 3) = ".xyzw"`, of length 5 > 3.  (2) The preserved
extension is that of the *sanitized* name, not of the raw input: for input
`"a.b  c"` (two spaces) the raw extension `"b  c"` is not a suffix of the
output `"a.b c"`. -/
theorem c9_counterexample :
    ¬ ((safeFilenameB (asciiBytes "a.xyzw") 3).length ≤ 3) ∧
    endsWithB (asciiBytes "b  c") (safeFilenameB (asciiBytes "a.b  c") 160) = false := by
  constructor
  · decide
  · decide

/-- C9 (amended): let `s` be the sanitized name and `ext` the `"." + suffix`
after `s`'s last dot (empty when `s` has no dot).  Then `_safe_filename`
always keeps `ext` as a suffix of its output, and the output length is at
most `max_len` whenever `ext` itself fits in `max_len`. -/
theorem c9_safe_filename (name : Bytes) (maxLen : Nat) :
    ((extOf (sanitizeName name)).length ≤ maxLen →
      (safeFilenameB name maxLen).length ≤ maxLen) ∧
    endsWithB (extOf (sanitizeName name)) (safeFilenameB name maxLen) = true := by
  unfold safeFilenameB extOf
  by_cases hlen : maxLen < (sanitizeName name).length
  · rw [if_pos hlen]
    cases hdot : lastDotSplit (sanitizeName name) with
    | none =>
      constructor
      · intro _
        unfold pySliceTo
        rw [if_neg (by omega)]
        simp only [Int.toNat_natCast, List.length_take]
        omega
      · simp [endsWithB, startsWithB]
    | some be =>
      obtain ⟨b, e⟩ := be
      constructor
      · intro hext
        simp only [List.length_cons] at hext ⊢
        unfold pySliceTo
        split
        · simp only [List.length_append, List.length_take, List.length_cons]
          omega
        · simp only [List.length_append, List.length_take, List.length_cons]
          omega
      · exact endsWithB_append _ _
  · rw [if_neg hlen]
    constructor
    · intro _
      omega
    · cases hdot : lastDotSplit (sanitizeName name) with
      | none => simp [endsWithB, startsWithB]
      | some be =>
        obtain ⟨b, e⟩ := be
        have hdec := lastDotSplit_spec hdot
        rw [hdec]
        exact endsWithB_append _ _

/-- C9 witness: `"Annual Report.pdf"` truncated to 10 keeps `.pdf` and fits. -/
theorem c9_safe_filename_witness :
    (extOf (sanitizeName (asciiBytes "Annual Report.pdf"))).length ≤ 10 ∧
    ((safeFilenameB (asciiBytes "Annual Report.pdf") 10).length ≤ 10 ∧
     endsWithB (extOf (sanitizeName (asciiBytes "Annual Report.pdf")))
       (safeFilenameB (asciiBytes "Annual Report.pdf") 10) = true) :=
  ⟨by decide,
   (c9_safe_filename (asciiBytes "Annual Report.pdf") 10).1 (by decide),
   (c9_safe_filename (asciiBytes "Annual Report.pdf") 10).2⟩

lemma assocFind_append_of_none {α β : Type} [DecidableEq α] {l : List (α × β)} {k : α}
    (h : assocFind l k = none) (l2 : List (α × β)) :
    assocFind (l ++ l2) k = assocFind l2 k := by
  induction l with
  | nil => simp
  | cons x t ih =>
    obtain ⟨a, b⟩ := x
    rw [assocFind] at h
    by_cases hak : a = k
    · rw [if_pos hak] at h; exact absurd h (by simp)
    · rw [if_neg hak] at h
      rw [List.cons_append, assocFind, if_neg hak]
      exact ih h

lemma assocFind_singleton {α β : Type} [DecidableEq α] (k : α) (v : β) :
    assocFind [(k, v)] k = some v := by
  rw [assocFind, if_pos rfl]

lemma putPdfWrite_spec (st : PdfStore) (source docId pdfUrl content : Bytes)
    (h0 : pdfSeenPath st source (pdfKeyB pdfUrl) = none) :
    pdfSeenPath (putPdfWrite st source docId pdfUrl content).1 source (pdfKeyB pdfUrl) =
      some (putPdfWrite st source docId pdfUrl content).2 ∧
    fsExistsP (putPdfWrite st source docId pdfUrl content).1
      (putPdfWrite st source docId pdfUrl content).2 = true ∧
    (putPdfWrite st source docId pdfUrl content).2.isEmpty = false ∧
    (fsRead st (putPdfWrite st source docId pdfUrl content).2 = none →
      fsRead (putPdfWrite st source docId pdfUrl content).1
        (putPdfWrite st source docId pdfUrl content).2 = some content) := by
  unfold putPdfWrite
  dsimp only
  set name := (pdfNameFromUrl pdfUrl).getD (safeFilenameB (docId ++ asciiBytes ".pdf") 160)
    with hname
  set path := source ++ asciiBytes "/pdf/" ++ name with hpath
  set key := pdfKeyB pdfUrl with hkey
  have hne : path.isEmpty = false := by
    rw [hpath, asciiBytes]
    simp
  by_cases hfs : fsExistsP st path
  · rw [if_pos hfs]
    unfold pdfMarkSeen
    unfold pdfSeenPath at h0
    rw [h0]
    simp only [Option.isSome_none, Bool.false_eq_true, if_false]
    refine ⟨?_, hfs, hne, ?_⟩
    · unfold pdfSeenPath
      dsimp only
      rw [assocFind_append_of_none h0, assocFind_singleton]
    · intro hread
      unfold fsExistsP at hfs
      unfold fsRead at hread
      rw [hread] at hfs
      simp at hfs
  · rw [if_neg hfs]
    unfold pdfMarkSeen fsWriteP
    unfold pdfSeenPath at h0
    dsimp only
    rw [h0]
    simp only [Option.isSome_none, Bool.false_eq_true, if_false]
    have hfsnone : assocFind st.fs path = none := by
      unfold fsExistsP at hfs
      cases hc : assocFind st.fs path with
      | none => rfl
      | some v => rw [hc] at hfs; simp at hfs
    have hwrote : assocFind (st.fs ++ [(path, content)]) path = some content := by
      rw [assocFind_append_of_none hfsnone, assocFind_singleton]
    refine ⟨?_, ?_, hne, fun _ => ?_⟩
    · unfold pdfSeenPath
      dsimp only
      rw [assocFind_append_of_none h0, assocFind_singleton]
    · unfold fsExistsP
      dsimp only
      rw [hwrote]
      rfl
    · unfold fsRead
      dsimp only
      exact hwrote

/-- C4: `put_pdf` is write-once per canonical URL.  For a key not yet in the
index, a second call whose URL canonicalizes identically (e.g. `?ts=123` vs
`?ts=456`) returns the same stored path and leaves the entire store — file
bytes and index — untouched, so the bytes on disk stay the first call's
payload (shown when the path was fresh); and the sqlite
`INSERT OR IGNORE` step never overwrites an existing key→path entry
(first writer wins). -/
theorem c4_put_pdf_write_once :
    (∀ (st0 : PdfStore) (source d1 d2 u1 u2 c1 c2 : Bytes),
      normalizePdfUrl u1 = normalizePdfUrl u2 →
      pdfSeenPath st0 source (pdfKeyB u1) = none →
      (putPdf (putPdf st0 source d1 u1 c1).1 source d2 u2 c2).2 =
        (putPdf st0 source d1 u1 c1).2 ∧
      (putPdf (putPdf st0 source d1 u1 c1).1 source d2 u2 c2).1 =
        (putPdf st0 source d1 u1 c1).1 ∧
      (fsRead st0 (putPdf st0 source d1 u1 c1).2 = none →
        fsRead (putPdf st0 source d1 u1 c1).1 (putPdf st0 source d1 u1 c1).2 =
          some c1)) ∧
    (∀ (st : PdfStore) (source key p q : Bytes),
      pdfSeenPath st source key = some p →
      pdfSeenPath (pdfMarkSeen st source key q) source key = some p) := by
  constructor
  · intro st0 source d1 d2 u1 u2 c1 c2 hcanon h0
    have hkey : pdfKeyB u2 = pdfKeyB u1 := by unfold pdfKeyB; rw [hcanon]
    have hfirst : putPdf st0 source d1 u1 c1 = putPdfWrite st0 source d1 u1 c1 := by
      unfold putPdf; rw [h0]
    obtain ⟨hseen, hex, hne, hread⟩ := putPdfWrite_spec st0 source d1 u1 c1 h0
    have hsecond : putPdf (putPdfWrite st0 source d1 u1 c1).1 source d2 u2 c2 =
        ((putPdfWrite st0 source d1 u1 c1).1, (putPdfWrite st0 source d1 u1 c1).2) := by
      unfold putPdf
      rw [hkey, hseen]
      simp only [hne, hex, Bool.not_false, Bool.and_self, if_true]
    rw [hfirst, hsecond]
    exact ⟨rfl, rfl, hread⟩
  · intro st source key p q h
    unfold pdfSeenPath at h ⊢
    unfold pdfMarkSeen
    rw [h]
    simp only [Option.isSome_some, if_true]
    exact h

/-- C4 witness: two tracking-parameter variants of the same report URL
against an empty store. -/
theorem c4_put_pdf_write_once_witness :
    (normalizePdfUrl (asciiBytes "https://x/report.pdf?ts=123") =
       normalizePdfUrl (asciiBytes "https://x/report.pdf?ts=456") ∧
     pdfSeenPath emptyPdfStore (asciiBytes "x")
       (pdfKeyB (asciiBytes "https://x/report.pdf?ts=123")) = none) ∧
    ((putPdf (putPdf emptyPdfStore (asciiBytes "x") (asciiBytes "doc1")
        (asciiBytes "https://x/report.pdf?ts=123") [1, 2, 3]).1 (asciiBytes "x")
        (asciiBytes "doc2") (asciiBytes "https://x/report.pdf?ts=456") [9]).2 =
      (putPdf emptyPdfStore (asciiBytes "x") (asciiBytes "doc1")
        (asciiBytes "https://x/report.pdf?ts=123") [1, 2, 3]).2 ∧
     (putPdf (putPdf emptyPdfStore (asciiBytes "x") (asciiBytes "doc1")
        (asciiBytes "https://x/report.pdf?ts=123") [1, 2, 3]).1 (asciiBytes "x")
        (asciiBytes "doc2") (asciiBytes "https://x/report.pdf?ts=456") [9]).1 =
      (putPdf emptyPdfStore (asciiBytes "x") (asciiBytes "doc1")
        (asciiBytes "https://x/report.pdf?ts=123") [1, 2, 3]).1 ∧
     (fsRead emptyPdfStore (putPdf emptyPdfStore (asciiBytes "x") (asciiBytes "doc1")
        (asciiBytes "https://x/report.pdf?ts=123") [1, 2, 3]).2 = none →
      fsRead (putPdf emptyPdfStore (asciiBytes "x") (asciiBytes "doc1")
        (asciiBytes "https://x/report.pdf?ts=123") [1, 2, 3]).1
        (putPdf emptyPdfStore (asciiBytes "x") (asciiBytes "doc1")
          (asciiBytes "https://x/report.pdf?ts=123") [1, 2, 3]).2 = some [1, 2, 3])) :=
  ⟨⟨by decide, rfl⟩,
   c4_put_pdf_write_once.1 emptyPdfStore (asciiBytes "x") (asciiBytes "doc1")
     (asciiBytes "doc2") (asciiBytes "https://x/report.pdf?ts=123")
     (asciiBytes "https://x/report.pdf?ts=456") [1, 2, 3] [9] (by decide) rfl⟩

lemma bytesLe_cons_iff {a b : Nat} {xs ys : Bytes} :
    bytesLe (a :: xs) (b :: ys) = true ↔ a < b ∨ (a = b ∧ bytesLe xs ys = true) := by
  show (if a < b then true else if b < a then false else bytesLe xs ys) = true ↔ _
  split_ifs with h1 h2
  · simp [h1]
  · simp only [Bool.false_eq_true, false_iff]
    rintro (h | ⟨rfl, -⟩) <;> omega
  · have hab : a = b := by omega
    simp [hab]

lemma bytesLe_total (x : Bytes) : ∀ y, bytesLe x y = true ∨ bytesLe y x = true := by
  induction x with
  | nil => intro y; left; rfl
  | cons a xs ih =>
    intro y
    cases y with
    | nil => right; rfl
    | cons b ys =>
      rcases Nat.lt_trichotomy a b with h | h | h
      · left; rw [bytesLe_cons_iff]; exact Or.inl h
      · subst h
        rcases ih ys with h2 | h2
        · left; rw [bytesLe_cons_iff]; exact Or.inr ⟨rfl, h2⟩
        · right; rw [bytesLe_cons_iff]; exact Or.inr ⟨rfl, h2⟩
      · right; rw [bytesLe_cons_iff]; exact Or.inl h

lemma bytesLe_trans : ∀ {x y z : Bytes}, bytesLe x y = true → bytesLe y z = true →
    bytesLe x z = true := by
  intro x
  induction x with
  | nil => intro y z _ _; rfl
  | cons a xs ih =>
    intro y z h1 h2
    cases y with
    | nil => exact absurd h1 (by simp [bytesLe])
    | cons b ys =>
      cases z with
      | nil => exact absurd h2 (by simp [bytesLe])
      | cons c zs =>
        rw [bytesLe_cons_iff] at h1 h2 ⊢
        rcases h1 with h1 | ⟨rfl, t1⟩
        · rcases h2 with h2 | ⟨rfl, t2⟩
          · exact Or.inl (by omega)
          · exact Or.inl h1
        · rcases h2 with h2 | ⟨rfl, t2⟩
          · exact Or.inl h2
          · exact Or.inr ⟨rfl, ih t1 t2⟩

lemma bytesLe_antisymm : ∀ {x y : Bytes}, bytesLe x y = true → bytesLe y x = true →
    x = y := by
  intro x
  induction x with
  | nil =>
    intro y _ h2
    cases y with
    | nil => rfl
    | cons b ys => exact absurd h2 (by simp [bytesLe])
  | cons a xs ih =>
    intro y h1 h2
    cases y with
    | nil => exact absurd h1 (by simp [bytesLe])
    | cons b ys =>
      rw [bytesLe_cons_iff] at h1 h2
      rcases h1 with h1 | ⟨rfl, t1⟩
      · rcases h2 with h2 | ⟨hba, -⟩ <;> omega
      · rcases h2 with h2 | ⟨-, t2⟩
        · omega
        · rw [ih t1 t2]

instance : IsTotal (Bytes × Bytes) pairRel := by
  constructor
  intro x y
  unfold pairRel pairLe
  by_cases h : x.1 = y.1
  · simp [h]
    exact bytesLe_total x.2 y.2
  · rw [if_neg h, if_neg (fun hy => h hy.symm)]
    exact bytesLe_total x.1 y.1

instance : IsTrans (Bytes × Bytes) pairRel := by
  constructor
  intro x y z h1 h2
  unfold pairRel pairLe at h1 h2 ⊢
  by_cases hxy : x.1 = y.1 <;> by_cases hyz : y.1 = z.1
  · rw [if_pos hxy] at h1
    rw [if_pos hyz] at h2
    rw [if_pos (hxy.trans hyz)]
    exact bytesLe_trans h1 h2
  · rw [if_pos hxy] at h1
    rw [if_neg hyz] at h2
    rw [if_neg (fun h => hyz (hxy ▸ h)), hxy]
    exact h2
  · rw [if_neg hxy] at h1
    rw [if_pos hyz] at h2
    rw [if_neg (fun h => hxy (h.trans hyz.symm)), ← hyz]
    exact h1
  · rw [if_neg hxy] at h1
    rw [if_neg hyz] at h2
    by_cases hxz : x.1 = z.1
    · have h2b : bytesLe y.1 x.1 = true := by rw [hxz]; exact h2
      exact absurd (bytesLe_antisymm h1 h2b) hxy
    · rw [if_neg hxz]
      exact bytesLe_trans h1 h2

instance : IsAntisymm (Bytes × Bytes) pairRel := by
  constructor
  intro x y h1 h2
  unfold pairRel pairLe at h1 h2
  by_cases hxy : x.1 = y.1
  · rw [if_pos hxy] at h1
    rw [if_pos hxy.symm] at h2
    obtain ⟨x1, x2⟩ := x
    obtain ⟨y1, y2⟩ := y
    simp only at hxy
    rw [Prod.mk.injEq]
    exact ⟨hxy, bytesLe_antisymm h1 h2⟩
  · rw [if_neg hxy] at h1
    rw [if_neg (fun h => hxy h.symm)] at h2
    exact absurd (bytesLe_antisymm h1 h2) hxy

lemma sortPairs_eq_of_perm {l1 l2 : List (Bytes × Bytes)} (h : List.Perm l1 l2) :
    sortPairs l1 = sortPairs l2 :=
  List.eq_of_perm_of_sorted
    (((List.perm_insertionSort pairRel l1).trans h).trans
      (List.perm_insertionSort pairRel l2).symm)
    (List.sorted_insertionSort pairRel l1)
    (List.sorted_insertionSort pairRel l2)

/-- The canonical form of any URL, written through its split components. -/
lemma canon_eq_core (u : Bytes) :
    normalizePdfUrl u = urlunsplitB (urlsplitB (pyStrip u)).scheme
      (urlsplitB (pyStrip u)).netloc (urlsplitB (pyStrip u)).path
      (urlencodeB (sortPairs ((parseQsl (urlsplitB (pyStrip u)).query).filter
        (fun kv => !(dropQueryKeys.contains (kv.1.map toLowerB)))))) [] := by
  unfold normalizePdfUrl
  by_cases h : (pyStrip u).isEmpty
  · rw [if_pos h]
    have he : pyStrip u = [] := by simpa using h
    rw [he]
    rfl
  · rw [if_neg h]
    rfl

/-- C8: canonicalization is invariant under query-parameter order, presence
of deny-listed tracking parameters, and the fragment.  Two URLs whose split
forms share scheme, netloc and path, and whose parsed queries agree up to
permutation after dropping deny-listed keys (fragments unconstrained),
canonicalize identically; in particular the two pairs of example URLs from
the spec canonicalize equal. -/
theorem c8_canon_invariance :
    (∀ u1 u2 : Bytes,
      (urlsplitB (pyStrip u1)).scheme = (urlsplitB (pyStrip u2)).scheme →
      (urlsplitB (pyStrip u1)).netloc = (urlsplitB (pyStrip u2)).netloc →
      (urlsplitB (pyStrip u1)).path = (urlsplitB (pyStrip u2)).path →
      List.Perm
        ((parseQsl (urlsplitB (pyStrip u1)).query).filter
          (fun kv => !(dropQueryKeys.contains (kv.1.map toLowerB))))
        ((parseQsl (urlsplitB (pyStrip u2)).query).filter
          (fun kv => !(dropQueryKeys.contains (kv.1.map toLowerB)))) →
      normalizePdfUrl u1 = normalizePdfUrl u2) ∧
    normalizePdfUrl (asciiBytes "https://x/a?b=1&a=2") =
      normalizePdfUrl (asciiBytes "https://x/a?a=2&b=1") ∧
    normalizePdfUrl (asciiBytes "https://x/a?utm_source=y&id=5") =
      normalizePdfUrl (asciiBytes "https://x/a?id=5") := by
  refine ⟨fun u1 u2 hs hn hp hq => ?_, by decide, by decide⟩
  rw [canon_eq_core u1, canon_eq_core u2, hs, hn, hp, sortPairs_eq_of_perm hq]

/-- C8 witness: two URLs differing in parameter order, a tracking `ts`
parameter, and the fragment. -/
theorem c8_canon_invariance_witness :
    ((urlsplitB (pyStrip (asciiBytes "https://x/a?b=1&a=2&ts=7#f1"))).scheme =
       (urlsplitB (pyStrip (asciiBytes "https://x/a?a=2&b=1#f2"))).scheme ∧
     (urlsplitB (pyStrip (asciiBytes "https://x/a?b=1&a=2&ts=7#f1"))).netloc =
       (urlsplitB (pyStrip (asciiBytes "https://x/a?a=2&b=1#f2"))).netloc ∧
     (urlsplitB (pyStrip (asciiBytes "https://x/a?b=1&a=2&ts=7#f1"))).path =
       (urlsplitB (pyStrip (asciiBytes "https://x/a?a=2&b=1#f2"))).path) ∧
    normalizePdfUrl (asciiBytes "https://x/a?b=1&a=2&ts=7#f1") =
      normalizePdfUrl (asciiBytes "https://x/a?a=2&b=1#f2") :=
  ⟨⟨by decide, by decide, by decide⟩,
   c8_canon_invariance.1 (asciiBytes "https://x/a?b=1&a=2&ts=7#f1")
     (asciiBytes "https://x/a?a=2&b=1#f2") (by decide) (by decide) (by decide)
     (by decide)⟩

/-! ## Canonicalizer round-trip lemmas (for C7) -/

lemma toLowerB_idem (b : Nat) : toLowerB (toLowerB b) = toLowerB b := by
  unfold toLowerB
  split_ifs with h1 h2 <;>
    simp only [Bool.and_eq_true, decide_eq_true_eq] at * <;> omega

lemma toLowerB_alpha {b : Nat} (h : isAlphaB b = true) : isAlphaB (toLowerB b) = true := by
  simp only [isAlphaB, Bool.or_eq_true, Bool.and_eq_true, decide_eq_true_eq] at h ⊢
  unfold toLowerB
  split_ifs with hif <;>
    simp only [Bool.and_eq_true, decide_eq_true_eq] at hif <;> omega

lemma toLowerB_scheme {b : Nat} (h : isSchemeByte b = true) :
    isSchemeByte (toLowerB b) = true := by
  simp only [isSchemeByte, isAlnumB, isAlphaB, isDigitB, Bool.or_eq_true,
    Bool.and_eq_true, decide_eq_true_eq, beq_iff_eq] at h ⊢
  unfold toLowerB
  split_ifs with hif <;>
    simp only [Bool.and_eq_true, decide_eq_true_eq] at hif <;> omega

lemma schemeByte_ne_58 {b : Nat} (h : isSchemeByte b = true) : b ≠ 58 := by
  simp only [isSchemeByte, isAlnumB, isAlphaB, isDigitB, Bool.or_eq_true,
    Bool.and_eq_true, decide_eq_true_eq, beq_iff_eq] at h
  omega

lemma firstIdx_cons_left {p : Nat → Bool} {xs : Bytes} {i : Nat} (ys : Bytes)
    (h : firstIdx p xs = some i) : firstIdx p (xs ++ ys) = some i := by
  obtain ⟨l1, b, l2, rfl, hlen, hb, hall⟩ := firstIdx_decomp h
  rw [List.append_assoc, List.cons_append]
  rw [firstIdx_append_some l1 b (l2 ++ ys) hall hb, hlen]

lemma splitScheme_recover {s rest : Bytes} (h : validLowerScheme s = true) :
    splitScheme (s ++ 58 :: rest) = (s, rest) := by
  cases s with
  | nil => simp [validLowerScheme] at h
  | cons b bs =>
    unfold validLowerScheme at h
    simp only [Bool.and_eq_true, beq_iff_eq] at h
    obtain ⟨⟨halpha, hall⟩, hlower⟩ := h
    have hno58 : ∀ a ∈ b :: bs, (a == 58) = false := fun a ha => by
      simpa using schemeByte_ne_58 (List.all_eq_true.mp hall a ha)
    unfold splitScheme
    rw [firstIdx_append_some (b :: bs) 58 rest hno58 (by simp)]
    dsimp only
    rw [take_of_decomp, drop_of_decomp]
    split_ifs with hc
    · rw [hlower]
    · exfalso
      apply hc
      simp only [List.cons_append, List.head?]
      simp [halpha, hall]

lemma splitScheme_fst_empty {x : Bytes} (h : (splitScheme x).1 = []) :
    splitScheme x = ([], x) := by
  unfold splitScheme at h ⊢
  cases hf : firstIdx (· == 58) x with
  | none => rfl
  | some i =>
    rw [hf] at h
    dsimp only at h ⊢
    by_cases hc : (0 < i && (x.take i).all isSchemeByte &&
        (match x.head? with | some b => isAlphaB b | none => false)) = true
    · rw [if_pos hc] at h
      simp only at h
      obtain ⟨l1, b2, l2, rfl, hlen, hb2, hall⟩ := firstIdx_decomp hf
      subst hlen
      rw [take_of_decomp, List.map_eq_nil_iff] at h
      simp only [Bool.and_eq_true, decide_eq_true_eq] at hc
      obtain ⟨⟨hi, -⟩, -⟩ := hc
      rw [h] at hi
      simp at hi
    · rw [if_neg hc]

lemma splitScheme_head_not_alpha {b : Nat} {rest : Bytes} (hb : isAlphaB b = false) :
    splitScheme (b :: rest) = ([], b :: rest) := by
  unfold splitScheme
  cases hf : firstIdx (· == 58) (b :: rest) with
  | none => rfl
  | some i =>
    dsimp only
    rw [if_neg]
    simp [hb]

lemma splitScheme_no_colon {x : Bytes} (h : ∀ a ∈ x, a ≠ 58) :
    splitScheme x = ([], x) := by
  unfold splitScheme
  rw [firstIdx_none_of_all (fun a ha => by simpa using h a ha)]

lemma validLowerScheme_of_accept {x : Bytes} {i : Nat}
    (hf : firstIdx (· == 58) x = some i)
    (hc : (0 < i && (x.take i).all isSchemeByte &&
      (match x.head? with | some b => isAlphaB b | none => false)) = true) :
    validLowerScheme ((x.take i).map toLowerB) = true := by
  simp only [Bool.and_eq_true, decide_eq_true_eq] at hc
  obtain ⟨⟨hi, hall⟩, hhead⟩ := hc
  cases x with
  | nil => simp [firstIdx] at hf
  | cons b bs =>
    simp only [List.head?] at hhead
    cases i with
    | zero => omega
    | succ j =>
      simp only [List.take_succ_cons, List.map_cons]
      unfold validLowerScheme
      simp only [List.take_succ_cons, List.all_cons, Bool.and_eq_true] at hall
      obtain ⟨hb, hbs⟩ := hall
      simp only [Bool.and_eq_true, beq_iff_eq]
      refine ⟨⟨toLowerB_alpha hhead, ?_⟩, ?_⟩
      · simp only [List.all_cons, Bool.and_eq_true]
        refine ⟨toLowerB_scheme hb, ?_⟩
        rw [List.all_map]
        refine List.all_eq_true.mpr (fun a ha => ?_)
        exact toLowerB_scheme (List.all_eq_true.mp hbs a ha)
      · simp only [List.map_cons, List.map_map, List.cons.injEq]
        refine ⟨toLowerB_idem b, ?_⟩
        have : ∀ a : Nat, (toLowerB ∘ toLowerB) a = toLowerB a := fun a => toLowerB_idem a
        exact List.map_congr_left (fun a _ => this a)

/-- `splitScheme` returns either an empty scheme or a valid lower-case one. -/
lemma splitScheme_fst_valid (x : Bytes) :
    (splitScheme x).1 = [] ∨ validLowerScheme (splitScheme x).1 = true := by
  unfold splitScheme
  cases hf : firstIdx (· == 58) x with
  | none => exact Or.inl rfl
  | some i =>
    dsimp only
    by_cases hc : (0 < i && (x.take i).all isSchemeByte &&
        (match x.head? with | some b => isAlphaB b | none => false)) = true
    · rw [if_pos hc]
      exact Or.inr (validLowerScheme_of_accept hf hc)
    · rw [if_neg hc]
      exact Or.inl rfl

lemma splitNetloc_recover {n rest : Bytes}
    (hn : ∀ a ∈ n, isNetlocDelim a = false)
    (hrest : rest = [] ∨ ∃ b t, rest = b :: t ∧ isNetlocDelim b = true) :
    splitNetloc (47 :: 47 :: (n ++ rest)) = (n, rest) := by
  unfold splitNetloc
  rw [if_pos (by simp)]
  simp only [List.drop_succ_cons, List.drop_zero]
  rcases hrest with rfl | ⟨b, t, rfl, hb⟩
  · rw [List.append_nil, firstIdx_none_of_all hn]
  · rw [firstIdx_append_some n b t hn hb]
    dsimp only
    rw [take_of_decomp]
    have : (n ++ b :: t).drop n.length = b :: t := List.drop_left n (b :: t)
    rw [this]

lemma splitNetloc_skip {x : Bytes} (h : x.take 2 ≠ [47, 47]) :
    splitNetloc x = ([], x) := by
  unfold splitNetloc
  rw [if_neg (by simpa using h)]

lemma splitFragmentB_none {x : Bytes} (h : ∀ a ∈ x, a ≠ 35) :
    splitFragmentB x = (x, []) := by
  unfold splitFragmentB
  rw [firstIdx_none_of_all (fun a ha => by simpa using h a ha)]

lemma splitQueryB_none {x : Bytes} (h : ∀ a ∈ x, a ≠ 63) :
    splitQueryB x = (x, []) := by
  unfold splitQueryB
  rw [firstIdx_none_of_all (fun a ha => by simpa using h a ha)]

lemma splitQueryB_recover {p q : Bytes} (hp : ∀ a ∈ p, a ≠ 63) :
    splitQueryB (p ++ 63 :: q) = (p, q) := by
  unfold splitQueryB
  rw [firstIdx_append_some p 63 q (fun a ha => by simpa using hp a ha) (by simp)]
  dsimp only
  rw [take_of_decomp, drop_of_decomp]

lemma isEncOut_facts {b : Nat} (h : isEncOut b = true) :
    b ≠ 58 ∧ b ≠ 63 ∧ b ≠ 35 ∧ b ≠ 9 ∧ b ≠ 10 ∧ b ≠ 13 ∧ b ≠ 47 := by
  simp only [isEncOut, isSafeByte, isAlnumB, isAlphaB, isDigitB, Bool.or_eq_true,
    Bool.and_eq_true, decide_eq_true_eq, beq_iff_eq] at h
  omega

lemma hexDigitU_isEncOut (n : Nat) : isEncOut (hexDigitU (n % 16)) = true := by
  have h : n % 16 < 16 := Nat.mod_lt _ (by omega)
  simp only [isEncOut, isSafeByte, isAlnumB, isAlphaB, isDigitB, hexDigitU,
    Bool.or_eq_true, Bool.and_eq_true, decide_eq_true_eq, beq_iff_eq]
  split_ifs <;> omega

lemma quotePlusByte_isEncOut {b c : Nat} (hc : c ∈ quotePlusByte b) :
    isEncOut c = true := by
  unfold quotePlusByte at hc
  split_ifs at hc with h1 h2
  · simp only [List.mem_singleton] at hc
    subst hc
    simp [isEncOut, h1]
  · simp only [List.mem_singleton] at hc
    subst hc
    decide
  · simp only [List.mem_cons, List.mem_singleton, List.not_mem_nil, or_false] at hc
    rcases hc with rfl | rfl | rfl
    · decide
    · exact hexDigitU_isEncOut _
    · exact hexDigitU_isEncOut _

lemma quotePlus_isEncOut : ∀ {xs : Bytes} {a : Nat},
    a ∈ quotePlus xs → isEncOut a = true := by
  intro xs
  induction xs with
  | nil => intro a ha; simp [quotePlus] at ha
  | cons b bs ih =>
    intro a ha
    have : quotePlus (b :: bs) = quotePlusByte b ++ quotePlus bs := rfl
    rw [this] at ha
    rcases List.mem_append.mp ha with h | h
    · exact quotePlusByte_isEncOut h
    · exact ih h

lemma urlencodeB_isEncOut {l : List (Bytes × Bytes)} {a : Nat}
    (ha : a ∈ urlencodeB l) : isEncOut a = true := by
  unfold urlencodeB at ha
  induction l with
  | nil => simp [joinSep] at ha
  | cons kv t ih =>
    cases t with
    | nil =>
      simp only [List.map_cons, List.map_nil, joinSep] at ha
      rcases List.mem_append.mp ha with h | h
      · exact quotePlus_isEncOut h
      · simp only [List.mem_cons] at h
        rcases h with rfl | h
        · decide
        · exact quotePlus_isEncOut h
    | cons kv2 t2 =>
      simp only [List.map_cons, joinSep] at ha
      rcases List.mem_append.mp ha with h | h
      · rcases List.mem_append.mp h with h2 | h2
        · exact quotePlus_isEncOut h2
        · simp only [List.mem_cons] at h2
          rcases h2 with rfl | h2
          · decide
          · exact quotePlus_isEncOut h2
      · simp only [List.mem_cons] at h
        rcases h with rfl | h
        · decide
        · apply ih
          simp only [List.map_cons, joinSep]
          exact h

lemma pyUnquote_cons_ne {b : Nat} (bs : Bytes) (hb : b ≠ 37) :
    pyUnquote (b :: bs) = b :: pyUnquote bs := by
  match bs with
  | [] => simp [pyUnquote, hb]
  | [x] => simp [pyUnquote, hb]
  | h1 :: h2 :: rest => simp [pyUnquote, hb]

lemma pyUnquote_escape {h1 h2 : Nat} (bs : Bytes)
    (hh : (isHexDigitB h1 && isHexDigitB h2) = true) :
    pyUnquote (37 :: h1 :: h2 :: bs) = (16 * hexVal h1 + hexVal h2) :: pyUnquote bs := by
  simp [pyUnquote, hh]

lemma hexDigitU_facts (n : Nat) :
    hexDigitU (n % 16) ≠ 43 ∧ hexDigitU (n % 16) ≠ 37 ∧
    isHexDigitB (hexDigitU (n % 16)) = true := by
  have h : n % 16 < 16 := Nat.mod_lt _ (by omega)
  simp only [hexDigitU, isHexDigitB, Bool.or_eq_true, Bool.and_eq_true,
    decide_eq_true_eq]
  split_ifs <;> omega

lemma hexVal_hexDigitU {n : Nat} (h : n < 16) : hexVal (hexDigitU n) = n := by
  simp only [hexDigitU, hexVal]
  split_ifs <;> simp_all <;> omega

lemma isSafeByte_facts {b : Nat} (h : isSafeByte b = true) :
    b ≠ 43 ∧ b ≠ 37 ∧ b ≠ 38 ∧ b ≠ 61 ∧ b < 256 := by
  simp only [isSafeByte, isAlnumB, isAlphaB, isDigitB, Bool.or_eq_true,
    Bool.and_eq_true, decide_eq_true_eq, beq_iff_eq] at h
  omega

lemma quotePlus_cons (b : Nat) (bs : Bytes) :
    quotePlus (b :: bs) = quotePlusByte b ++ quotePlus bs := rfl

lemma quotePlus_ne {xs : Bytes} : ∀ c ∈ quotePlus xs, c ≠ 38 ∧ c ≠ 61 := by
  induction xs with
  | nil => intro c hc; simp [quotePlus] at hc
  | cons b bs ih =>
    intro c hc
    rw [quotePlus_cons] at hc
    rcases List.mem_append.mp hc with h | h
    · unfold quotePlusByte at h
      split_ifs at h with h1 h2
      · simp only [List.mem_singleton] at h
        subst h
        have := isSafeByte_facts h1
        omega
      · simp only [List.mem_singleton] at h
        omega
      · simp only [List.mem_cons, List.mem_singleton, List.not_mem_nil, or_false] at h
        rcases h with rfl | rfl | rfl
        · omega
        · have := hexDigitU_facts (b / 16)
          have h16 : isHexDigitB (hexDigitU (b / 16 % 16)) = true := this.2.2
          simp only [isHexDigitB, Bool.or_eq_true, Bool.and_eq_true,
            decide_eq_true_eq] at h16
          omega
        · have := hexDigitU_facts b
          have h16 : isHexDigitB (hexDigitU (b % 16)) = true := this.2.2
          simp only [isHexDigitB, Bool.or_eq_true, Bool.and_eq_true,
            decide_eq_true_eq] at h16
          omega
    · exact ih c h

lemma unqPlus_quotePlus : ∀ {k : Bytes}, (∀ b ∈ k, b < 256) →
    unqPlus (quotePlus k) = k := by
  intro k
  induction k with
  | nil => intro _; rfl
  | cons b bs ih =>
    intro h256
    have hbs := ih (fun a ha => h256 a (by simp [ha]))
    have hb256 : b < 256 := h256 b (by simp)
    rw [quotePlus_cons]
    unfold unqPlus plusToSpace at hbs ⊢
    rw [List.map_append]
    unfold quotePlusByte
    split_ifs with h1 h2
    · obtain ⟨hne43, hne37, -, -, -⟩ := isSafeByte_facts h1
      simp only [List.map_cons, List.map_nil, List.cons_append, List.nil_append]
      rw [if_neg (by simpa using hne43)]
      rw [pyUnquote_cons_ne _ hne37, hbs]
    · have hb32 : b = 32 := by simpa using h2
      subst hb32
      have hm : List.map (fun c => if (c == 43) = true then 32 else c) [43] = [32] := by
        decide
      rw [hm, List.cons_append, List.nil_append]
      rw [pyUnquote_cons_ne _ (by omega), hbs]
    · obtain ⟨hu1a, hu1b, hu1c⟩ := hexDigitU_facts (b / 16)
      obtain ⟨hu2a, hu2b, hu2c⟩ := hexDigitU_facts b
      simp only [List.map_cons, List.map_nil, List.cons_append, List.nil_append]
      rw [if_neg (by simp), if_neg (by simpa using hu1a), if_neg (by simpa using hu2a)]
      rw [pyUnquote_escape _ (by rw [hu1c, hu2c]; rfl)]
      rw [hbs]
      congr 1
      have e1 : hexVal (hexDigitU (b / 16 % 16)) = b / 16 % 16 :=
        hexVal_hexDigitU (Nat.mod_lt _ (by omega))
      have e2 : hexVal (hexDigitU (b % 16)) = b % 16 :=
        hexVal_hexDigitU (Nat.mod_lt _ (by omega))
      rw [e1, e2]
      omega

lemma splitOnB_no_sep {sep : Nat} : ∀ {x : Bytes}, (∀ c ∈ x, c ≠ sep) →
    splitOnB sep x = [x] := by
  intro x
  induction x with
  | nil => intro _; rfl
  | cons b bs ih =>
    intro h
    have hb : b ≠ sep := h b (by simp)
    rw [splitOnB, if_neg (by simpa using hb), ih (fun c hc => h c (by simp [hc]))]

lemma splitOnB_append_sep {sep : Nat} : ∀ {x rest : Bytes}, (∀ c ∈ x, c ≠ sep) →
    splitOnB sep (x ++ sep :: rest) = x :: splitOnB sep rest := by
  intro x
  induction x with
  | nil =>
    intro rest _
    rw [List.nil_append, splitOnB, if_pos (by simp)]
  | cons b bs ih =>
    intro rest h
    have hb : b ≠ sep := h b (by simp)
    rw [List.cons_append, splitOnB, if_neg (by simpa using hb),
      ih (fun c hc => h c (by simp [hc]))]

lemma piece_ne_nil (k v : Bytes) : (quotePlus k ++ 61 :: quotePlus v).isEmpty = false := by
  cases hq : quotePlus k with
  | nil => simp
  | cons a t => simp

lemma splitFirst_piece (k v : Bytes) :
    splitFirst 61 (quotePlus k ++ 61 :: quotePlus v) = some (quotePlus k, quotePlus v) := by
  unfold splitFirst
  rw [firstIdx_append_some (quotePlus k) 61 (quotePlus v)
    (fun a ha => by simpa using (quotePlus_ne a ha).2) (by simp)]
  dsimp only
  rw [take_of_decomp, drop_of_decomp]

lemma urlencodeB_cons_cons (kv kv2 : Bytes × Bytes) (t : List (Bytes × Bytes)) :
    urlencodeB (kv :: kv2 :: t) =
      (quotePlus kv.1 ++ 61 :: quotePlus kv.2) ++ 38 :: urlencodeB (kv2 :: t) := by
  unfold urlencodeB
  simp only [List.map_cons, joinSep]

lemma urlencodeB_ne_nil (kv : Bytes × Bytes) (t : List (Bytes × Bytes)) :
    (urlencodeB (kv :: t)).isEmpty = false := by
  cases t with
  | nil =>
    unfold urlencodeB
    simp only [List.map_cons, List.map_nil, joinSep]
    exact piece_ne_nil kv.1 kv.2
  | cons kv2 t2 =>
    rw [urlencodeB_cons_cons]
    have := piece_ne_nil kv.1 kv.2
    cases hq : quotePlus kv.1 with
    | nil => simp
    | cons a t3 => simp

lemma parseQsl_urlencodeB : ∀ {l : List (Bytes × Bytes)},
    (∀ kv ∈ l, (∀ b ∈ kv.1, b < 256) ∧ ∀ b ∈ kv.2, b < 256) →
    parseQsl (urlencodeB l) = l := by
  intro l
  induction l with
  | nil => intro _; rfl
  | cons kv t ih =>
    intro hwf
    obtain ⟨hk, hv⟩ := hwf kv (by simp)
    have hnosep : ∀ c ∈ quotePlus kv.1 ++ 61 :: quotePlus kv.2, c ≠ 38 := by
      intro c hc
      rcases List.mem_append.mp hc with h | h
      · exact (quotePlus_ne c h).1
      · simp only [List.mem_cons] at h
        rcases h with rfl | h
        · omega
        · exact (quotePlus_ne c h).1
    cases t with
    | nil =>
      unfold parseQsl urlencodeB
      simp only [List.map_cons, List.map_nil, joinSep]
      rw [if_neg (by simp [piece_ne_nil])]
      rw [splitOnB_no_sep hnosep]
      simp only [List.filterMap_cons, List.filterMap_nil]
      rw [if_neg (by simp [piece_ne_nil])]
      rw [splitFirst_piece]
      dsimp only
      rw [unqPlus_quotePlus hk, unqPlus_quotePlus hv]
    | cons kv2 t2 =>
      have ih2 := ih (fun x hx => hwf x (by simp [hx]))
      rw [urlencodeB_cons_cons]
      unfold parseQsl
      rw [if_neg ?hne1]
      case hne1 =>
        have hp := piece_ne_nil kv.1 kv.2
        cases hq : quotePlus kv.1 with
        | nil => simp
        | cons a t3 => simp
      rw [splitOnB_append_sep hnosep]
      simp only [List.filterMap_cons]
      rw [if_neg (by simp [piece_ne_nil])]
      rw [splitFirst_piece]
      dsimp only
      rw [unqPlus_quotePlus hk, unqPlus_quotePlus hv]
      unfold parseQsl at ih2
      rw [if_neg (by simp [urlencodeB_ne_nil])] at ih2
      rw [ih2]

lemma hexVal_lt {b : Nat} (h : isHexDigitB b = true) : hexVal b < 16 := by
  simp only [isHexDigitB, Bool.or_eq_true, Bool.and_eq_true, decide_eq_true_eq] at h
  unfold hexVal
  split_ifs with hA hB <;> simp only [Bool.and_eq_true, decide_eq_true_eq] at * <;> omega

lemma plusToSpace_lt256 {xs : Bytes} (h : ∀ b ∈ xs, b < 256) :
    ∀ b ∈ plusToSpace xs, b < 256 := by
  intro b hb
  unfold plusToSpace at hb
  obtain ⟨a, ha, rfl⟩ := List.mem_map.mp hb
  by_cases h43 : (a == 43) = true
  · simp [h43]
  · simp only [h43, if_false]
    exact h a ha

lemma pyUnquote_cons_general (b : Nat) (bs : Bytes)
    (hnm : ∀ (h1 h2 : Nat) (t : List Nat), b = 37 → bs = h1 :: h2 :: t → False) :
    pyUnquote (b :: bs) = b :: pyUnquote bs := by
  by_cases hb : b = 37
  · subst hb
    match bs with
    | [] => simp [pyUnquote]
    | [x] => simp [pyUnquote]
    | h1 :: h2 :: t => exact absurd rfl (fun hh => hnm h1 h2 t rfl hh)
  · exact pyUnquote_cons_ne bs hb

lemma pyUnquote_lt256 : ∀ {xs : Bytes}, (∀ b ∈ xs, b < 256) →
    ∀ b ∈ pyUnquote xs, b < 256 := by
  intro xs
  induction xs using pyUnquote.induct with
  | case1 => intro _ b hb; simp [pyUnquote] at hb
  | case2 h1 h2 bs hhex ih =>
    intro hin b hb
    rw [pyUnquote_escape _ hhex] at hb
    rcases List.mem_cons.mp hb with rfl | hb2
    · obtain ⟨hx1, hx2⟩ := Bool.and_eq_true_iff.mp hhex
      have v1 := hexVal_lt hx1
      have v2 := hexVal_lt hx2
      omega
    · exact ih (fun a ha => hin a (by simp [ha])) b hb2
  | case3 h1 h2 bs hhex ih =>
    intro hin b hb
    have heq : pyUnquote (37 :: h1 :: h2 :: bs) = 37 :: pyUnquote (h1 :: h2 :: bs) := by
      simp [pyUnquote, hhex]
    rw [heq] at hb
    rcases List.mem_cons.mp hb with rfl | hb2
    · omega
    · exact ih (fun a ha => hin a (by simp [ha])) b hb2
  | case4 b bs hnm ih =>
    intro hin a ha
    rw [pyUnquote_cons_general b bs hnm] at ha
    rcases List.mem_cons.mp ha with rfl | ha2
    · exact hin a (by simp)
    · exact ih (fun c hc => hin c (by simp [hc])) a ha2

lemma unqPlus_lt256 {xs : Bytes} (h : ∀ b ∈ xs, b < 256) :
    ∀ b ∈ unqPlus xs, b < 256 :=
  pyUnquote_lt256 (plusToSpace_lt256 h)

lemma splitOnB_mem_subset {sep : Nat} : ∀ {xs piece : Bytes},
    piece ∈ splitOnB sep xs → ∀ c ∈ piece, c ∈ xs := by
  intro xs
  induction xs with
  | nil =>
    intro piece hp c hc
    simp only [splitOnB, List.mem_singleton] at hp
    subst hp
    simp at hc
  | cons b bs ih =>
    intro piece hp c hc
    rw [splitOnB] at hp
    by_cases hsep : (b == sep) = true
    · rw [if_pos hsep] at hp
      rcases List.mem_cons.mp hp with rfl | hp2
      · simp at hc
      · exact List.mem_cons_of_mem b (ih hp2 c hc)
    · rw [if_neg hsep] at hp
      cases hrec : splitOnB sep bs with
      | nil =>
        rw [hrec] at hp
        simp only [List.mem_singleton] at hp
        subst hp
        simp only [List.mem_singleton] at hc
        simp [hc]
      | cons hpce t =>
        rw [hrec] at hp
        rcases List.mem_cons.mp hp with rfl | hp2
        · rcases List.mem_cons.mp hc with rfl | hc2
          · simp
          · exact List.mem_cons_of_mem b (ih (hrec ▸ List.mem_cons_self hpce t) c hc2)
        · exact List.mem_cons_of_mem b (ih (hrec ▸ List.mem_cons_of_mem hpce hp2) c hc)

lemma parseQsl_lt256 {qs : Bytes} (h : ∀ b ∈ qs, b < 256) :
    ∀ kv ∈ parseQsl qs, (∀ b ∈ kv.1, b < 256) ∧ ∀ b ∈ kv.2, b < 256 := by
  intro kv hkv
  unfold parseQsl at hkv
  by_cases hq : qs.isEmpty
  · rw [if_pos hq] at hkv
    simp at hkv
  · rw [if_neg hq] at hkv
    obtain ⟨nv, hnv, hf⟩ := List.mem_filterMap.mp hkv
    have hnv256 : ∀ c ∈ nv, c < 256 := fun c hc => h c (splitOnB_mem_subset hnv c hc)
    by_cases hne : nv.isEmpty
    · rw [if_pos hne] at hf
      simp at hf
    · rw [if_neg hne] at hf
      simp only [Option.some.injEq] at hf
      cases hsp : splitFirst 61 nv with
      | none =>
        rw [hsp] at hf
        dsimp only at hf
        subst hf
        constructor
        · exact unqPlus_lt256 hnv256
        · simp
      | some kvp =>
        rw [hsp] at hf
        dsimp only at hf
        subst hf
        unfold splitFirst at hsp
        cases hfi : firstIdx (· == 61) nv with
        | none => rw [hfi] at hsp; exact absurd hsp (by simp)
        | some i =>
          rw [hfi] at hsp
          simp only [Option.some.injEq] at hsp
          subst hsp
          constructor
          · exact unqPlus_lt256 (fun c hc => hnv256 c (List.take_subset _ _ hc))
          · exact unqPlus_lt256 (fun c hc => hnv256 c (List.drop_subset _ _ hc))

lemma splitScheme_snd_subset {x : Bytes} : ∀ a ∈ (splitScheme x).2, a ∈ x := by
  unfold splitScheme
  cases hf : firstIdx (· == 58) x with
  | none => exact fun a ha => ha
  | some i =>
    dsimp only
    split_ifs with hc
    · exact fun a ha => List.drop_subset _ _ ha
    · exact fun a ha => ha

lemma splitNetloc_fst_subset {x : Bytes} : ∀ a ∈ (splitNetloc x).1, a ∈ x := by
  unfold splitNetloc
  split_ifs with hc
  · dsimp only
    cases hf : firstIdx isNetlocDelim (x.drop 2) with
    | none =>
      exact fun a ha => List.drop_subset _ _ ha
    | some i =>
      exact fun a ha => List.drop_subset _ _ (List.take_subset _ _ ha)
  · intro a ha
    simp at ha

lemma splitNetloc_snd_subset {x : Bytes} : ∀ a ∈ (splitNetloc x).2, a ∈ x := by
  unfold splitNetloc
  split_ifs with hc
  · dsimp only
    cases hf : firstIdx isNetlocDelim (x.drop 2) with
    | none =>
      intro a ha
      simp at ha
    | some i =>
      exact fun a ha => List.drop_subset _ _ (List.drop_subset _ _ ha)
  · exact fun a ha => ha

lemma splitFragmentB_fst_subset {x : Bytes} : ∀ a ∈ (splitFragmentB x).1, a ∈ x := by
  unfold splitFragmentB
  cases hf : firstIdx (· == 35) x with
  | none => exact fun a ha => ha
  | some i => exact fun a ha => List.take_subset _ _ ha

lemma splitQueryB_fst_subset {x : Bytes} : ∀ a ∈ (splitQueryB x).1, a ∈ x := by
  unfold splitQueryB
  cases hf : firstIdx (· == 63) x with
  | none => exact fun a ha => ha
  | some i => exact fun a ha => List.take_subset _ _ ha

lemma splitQueryB_snd_subset {x : Bytes} : ∀ a ∈ (splitQueryB x).2, a ∈ x := by
  unfold splitQueryB
  cases hf : firstIdx (· == 63) x with
  | none => intro a ha; simp at ha
  | some i => exact fun a ha => List.drop_subset _ _ ha

lemma splitNetloc_fst_no_delim {x : Bytes} :
    ∀ a ∈ (splitNetloc x).1, isNetlocDelim a = false := by
  unfold splitNetloc
  split_ifs with hc
  · dsimp only
    cases hf : firstIdx isNetlocDelim (x.drop 2) with
    | none =>
      exact firstIdx_all_of_none hf
    | some i =>
      dsimp only
      obtain ⟨l1, b, l2, hdec, hlen, hb, hall⟩ := firstIdx_decomp hf
      rw [hdec, ← hlen, take_of_decomp]
      exact hall
  · intro a ha
    simp at ha

lemma splitNetloc_snd_shape {x : Bytes} (hx : x.take 2 = [47, 47]) :
    (splitNetloc x).2 = [] ∨
    ∃ b t, (splitNetloc x).2 = b :: t ∧ isNetlocDelim b = true := by
  unfold splitNetloc
  rw [if_pos (by simpa using hx)]
  dsimp only
  cases hf : firstIdx isNetlocDelim (x.drop 2) with
  | none =>
    exact Or.inl rfl
  | some i =>
    dsimp only
    obtain ⟨l1, b, l2, hdec, hlen, hb, hall⟩ := firstIdx_decomp hf
    refine Or.inr ⟨b, l2, ?_, hb⟩
    rw [hdec, ← hlen]
    exact List.drop_left l1 (b :: l2)

lemma splitFragmentB_fst_no35 {x : Bytes} :
    ∀ a ∈ (splitFragmentB x).1, (a == 35) = false := by
  unfold splitFragmentB
  cases hf : firstIdx (· == 35) x with
  | none => exact firstIdx_all_of_none hf
  | some i =>
    dsimp only
    obtain ⟨l1, b, l2, hdec, hlen, hb, hall⟩ := firstIdx_decomp hf
    rw [hdec, ← hlen, take_of_decomp]
    exact hall

lemma splitQueryB_fst_no63 {x : Bytes} :
    ∀ a ∈ (splitQueryB x).1, (a == 63) = false := by
  unfold splitQueryB
  cases hf : firstIdx (· == 63) x with
  | none => exact firstIdx_all_of_none hf
  | some i =>
    dsimp only
    obtain ⟨l1, b, l2, hdec, hlen, hb, hall⟩ := firstIdx_decomp hf
    rw [hdec, ← hlen, take_of_decomp]
    exact hall

lemma splitFragmentB_fst_cons {b : Nat} {t : Bytes} (hb : b ≠ 35) :
    (splitFragmentB (b :: t)).1 = b :: (splitFragmentB t).1 := by
  unfold splitFragmentB
  rw [firstIdx]
  rw [if_neg (by simpa using hb)]
  cases hf : firstIdx (· == 35) t with
  | none => rfl
  | some i => rfl

lemma splitQueryB_fst_cons {b : Nat} {t : Bytes} (hb : b ≠ 63) :
    (splitQueryB (b :: t)).1 = b :: (splitQueryB t).1 := by
  unfold splitQueryB
  rw [firstIdx]
  rw [if_neg (by simpa using hb)]
  cases hf : firstIdx (· == 63) t with
  | none => rfl
  | some i => rfl

lemma splitFragmentB_fst_take (x : Bytes) : ∃ m, (splitFragmentB x).1 = x.take m := by
  unfold splitFragmentB
  cases hf : firstIdx (· == 35) x with
  | none => exact ⟨x.length, by simp⟩
  | some i => exact ⟨i, rfl⟩

lemma splitQueryB_fst_take (x : Bytes) : ∃ m, (splitQueryB x).1 = x.take m := by
  unfold splitQueryB
  cases hf : firstIdx (· == 63) x with
  | none => exact ⟨x.length, by simp⟩
  | some i => exact ⟨i, rfl⟩

lemma sortPairs_idem (l : List (Bytes × Bytes)) : sortPairs (sortPairs l) = sortPairs l :=
  sortPairs_eq_of_perm (List.perm_insertionSort pairRel l)

lemma filter_sortPairs_fixed (q : List (Bytes × Bytes))
    (pred : Bytes × Bytes → Bool) :
    (sortPairs (q.filter pred)).filter pred = sortPairs (q.filter pred) := by
  apply List.filter_eq_self.mpr
  intro kv hkv
  have : kv ∈ q.filter pred := (List.perm_insertionSort pairRel _).mem_iff.mp hkv
  exact List.of_mem_filter this

lemma splitScheme_transfer {x0 : Bytes} (hfail : splitScheme x0 = ([], x0))
    (m : Nat) {tail2 : Bytes} (htail : ∀ a ∈ tail2, a ≠ 58) :
    splitScheme (x0.take m ++ tail2) = ([], x0.take m ++ tail2) := by
  cases hf : firstIdx (· == 58) (x0.take m) with
  | none =>
    apply splitScheme_no_colon
    intro a ha
    rcases List.mem_append.mp ha with h | h
    · have := firstIdx_all_of_none hf a h
      simpa using this
    · exact htail a h
  | some j =>
    obtain ⟨l1, c, l2, hdec, hlen, hc, hall⟩ := firstIdx_decomp hf
    have hc58 : c = 58 := by simpa using hc
    subst hc58
    subst hlen
    have hx0 : x0 = l1 ++ 58 :: (l2 ++ x0.drop m) := by
      conv_lhs => rw [← List.take_append_drop m x0]
      rw [hdec, List.append_assoc, List.cons_append]
    have hfx0 : firstIdx (· == 58) x0 = some l1.length := by
      conv_lhs => rw [hx0]
      exact firstIdx_append_some l1 58 (l2 ++ x0.drop m) hall (by simp)
    -- the acceptance condition must have failed on x0
    have hcond : ¬ ((0 < l1.length && (x0.take l1.length).all isSchemeByte &&
        (match x0.head? with | some b => isAlphaB b | none => false)) = true) := by
      intro hcond
      unfold splitScheme at hfail
      rw [hfx0] at hfail
      dsimp only at hfail
      rw [if_pos hcond] at hfail
      have h2 := congrArg Prod.snd hfail
      dsimp only at h2
      have hlt : l1.length < x0.length := by
        conv_rhs => rw [hx0]
        simp only [List.length_append, List.length_cons]
        omega
      have := congrArg List.length h2
      simp only [List.length_drop] at this
      omega
    -- the same condition fails on the new string
    have htake_x0 : x0.take l1.length = l1 := by
      conv_lhs => rw [hx0]
      exact take_of_decomp
    have hnew : x0.take m ++ tail2 = l1 ++ 58 :: (l2 ++ tail2) := by
      rw [hdec, List.append_assoc, List.cons_append]
    have hfnew : firstIdx (· == 58) (x0.take m ++ tail2) = some l1.length := by
      rw [hnew]
      exact firstIdx_append_some l1 58 (l2 ++ tail2) hall (by simp)
    have htake_new : (x0.take m ++ tail2).take l1.length = l1 := by
      rw [hnew]
      exact take_of_decomp
    unfold splitScheme
    rw [hfnew]
    dsimp only
    rw [if_neg]
    intro hcond2
    apply hcond
    rw [htake_x0]
    rw [htake_new] at hcond2
    by_cases hl1 : l1 = []
    · subst hl1
      simp at hcond2
    · obtain ⟨d, l1t, rfl⟩ := List.exists_cons_of_ne_nil hl1
      have hh1 : x0.head? = some d := by rw [hx0]; rfl
      have hh2 : (x0.take m ++ tail2).head? = some d := by rw [hnew]; rfl
      rw [hh2] at hcond2
      rw [hh1]
      exact hcond2

lemma pyStrip_subset {xs : Bytes} : ∀ a ∈ pyStrip xs, a ∈ xs := by
  intro a ha
  unfold pyStrip at ha
  rw [List.mem_reverse] at ha
  have h1 := (List.dropWhile_sublist isStripByte).subset ha
  rw [List.mem_reverse] at h1
  exact (List.dropWhile_sublist isStripByte).subset h1

lemma removeUnsafe_subset {xs : Bytes} : ∀ a ∈ removeUnsafe xs, a ∈ xs :=
  fun _ ha => List.mem_of_mem_filter ha

lemma removeUnsafe_no_trn {xs : Bytes} :
    ∀ a ∈ removeUnsafe xs, a ≠ 9 ∧ a ≠ 10 ∧ a ≠ 13 := by
  intro a ha
  have := List.of_mem_filter ha
  simp only [Bool.not_eq_true', Bool.or_eq_false_iff, beq_eq_false_iff_ne] at this
  exact ⟨this.1.1, this.2, this.1.2⟩

lemma removeUnsafe_eq_self {xs : Bytes}
    (h : ∀ a ∈ xs, a ≠ 9 ∧ a ≠ 10 ∧ a ≠ 13) : removeUnsafe xs = xs := by
  apply List.filter_eq_self.mpr
  intro a ha
  obtain ⟨h9, h10, h13⟩ := h a ha
  simp [h9, h10, h13]

lemma validLowerScheme_bytes {s : Bytes} (h : validLowerScheme s = true) :
    ∀ a ∈ s, isSchemeByte a = true := by
  cases s with
  | nil => simp
  | cons b bs =>
    unfold validLowerScheme at h
    simp only [Bool.and_eq_true] at h
    exact List.all_eq_true.mp h.1.2

lemma schemeByte_facts {b : Nat} (h : isSchemeByte b = true) :
    b ≠ 9 ∧ b ≠ 10 ∧ b ≠ 13 ∧ b ≠ 47 ∧ b ≠ 63 ∧ b ≠ 35 := by
  simp only [isSchemeByte, isAlnumB, isAlphaB, isDigitB, Bool.or_eq_true,
    Bool.and_eq_true, decide_eq_true_eq, beq_iff_eq] at h
  omega

lemma urlunsplitB_mem {s n p q : Bytes} {a : Nat}
    (ha : a ∈ urlunsplitB s n p q []) :
    a ∈ s ∨ a ∈ n ∨ a ∈ p ∨ a ∈ q ∨ a = 58 ∨ a = 47 ∨ a = 63 := by
  unfold urlunsplitB at ha
  rw [if_neg (by simp)] at ha
  split_ifs at ha <;>
    (try simp only [List.mem_append, List.mem_cons, List.not_mem_nil, or_false] at ha) <;>
    tauto

lemma path_head_of_shape {r2 : Bytes}
    (h : r2 = [] ∨ ∃ b t, r2 = b :: t ∧ isNetlocDelim b = true) :
    (splitQueryB (splitFragmentB r2).1).1 = [] ∨
    ((splitQueryB (splitFragmentB r2).1).1).head? = some 47 := by
  rcases h with rfl | ⟨b, t, rfl, hb⟩
  · left
    rfl
  · simp only [isNetlocDelim, Bool.or_eq_true, beq_iff_eq] at hb
    rcases hb with (rfl | rfl) | rfl
    · right
      rw [splitFragmentB_fst_cons (by omega), splitQueryB_fst_cons (by omega)]
      rfl
    · left
      rw [splitFragmentB_fst_cons (by omega)]
      unfold splitQueryB
      rw [firstIdx, if_pos (by simp)]
      rfl
    · left
      unfold splitFragmentB
      rw [firstIdx, if_pos (by simp)]
      rfl

lemma netloc_taken_of_ne_nil {r1 : Bytes} (h : (splitNetloc r1).1 ≠ []) :
    r1.take 2 = [47, 47] := by
  by_contra hc
  rw [splitNetloc_skip hc] at h
  exact h rfl

lemma splitNetloc_decomp {x : Bytes} (hx : x.take 2 = [47, 47]) :
    x.drop 2 = (splitNetloc x).1 ++ (splitNetloc x).2 := by
  unfold splitNetloc
  rw [if_pos (by simpa using hx)]
  dsimp only
  cases hf : firstIdx isNetlocDelim (x.drop 2) with
  | none => simp
  | some i =>
    dsimp only
    rw [List.take_append_drop]

lemma take2_append_ne {p qt : Bytes} (hp : p.take 2 ≠ [47, 47])
    (hqt : qt = [] ∨ ∃ t, qt = 63 :: t) :
    (p ++ qt).take 2 ≠ [47, 47] := by
  cases p with
  | nil =>
    rcases hqt with rfl | ⟨t, rfl⟩
    · simp
    · cases t <;> simp
  | cons a p1 =>
    cases p1 with
    | nil =>
      rcases hqt with rfl | ⟨t, rfl⟩
      · simpa using hp
      · simp only [List.cons_append, List.nil_append]
        intro hcontra
        simp at hcontra
    | cons b p2 =>
      simp only [List.cons_append]
      simpa using hp

lemma pass2_scheme {s rest : Bytes} (HsV : s = [] ∨ validLowerScheme s = true)
    (Hempty : s = [] → splitScheme rest = ([], rest)) :
    splitScheme (if s.isEmpty then rest else s ++ 58 :: rest) = (s, rest) := by
  rcases HsV with rfl | hv
  · rw [if_pos (show (List.isEmpty ([] : Bytes)) = true from rfl)]
    exact Hempty rfl
  · have hne : s.isEmpty = false := by
      cases s with
      | nil => simp [validLowerScheme] at hv
      | cons b bs => rfl
    rw [hne]
    simp only [Bool.false_eq_true, if_false]
    exact splitScheme_recover hv

lemma pass2_tail {body q : Bytes} (hb35 : ∀ a ∈ body, a ≠ 35)
    (hb63 : ∀ a ∈ body, a ≠ 63) (hq : ∀ a ∈ q, isEncOut a = true) :
    splitFragmentB (body ++ (if q.isEmpty then [] else 63 :: q)) =
      (body ++ (if q.isEmpty then [] else 63 :: q), []) ∧
    splitQueryB (body ++ (if q.isEmpty then [] else 63 :: q)) = (body, q) := by
  cases hqe : q.isEmpty with
  | true =>
    have hq0 : q = [] := by simpa using hqe
    subst hq0
    simp only [List.isEmpty_nil, if_true, List.append_nil]
    exact ⟨splitFragmentB_none hb35, splitQueryB_none hb63⟩
  | false =>
    rw [if_neg (by simp [hqe])]
    constructor
    · apply splitFragmentB_none
      intro a ha
      rcases List.mem_append.mp ha with h | h
      · exact hb35 a h
      · rcases List.mem_cons.mp h with rfl | h2
        · omega
        · exact (isEncOut_facts (hq a h2)).2.2.1
    · exact splitQueryB_recover hb63

lemma tail_shape {p2 q : Bytes} (h : p2 = [] ∨ p2.head? = some 47) :
    p2 ++ (if q.isEmpty then [] else 63 :: q) = [] ∨
    ∃ b t, p2 ++ (if q.isEmpty then [] else 63 :: q) = b :: t ∧
      isNetlocDelim b = true := by
  rcases h with rfl | hh
  · cases hqe : q.isEmpty
    · rw [if_neg (by simp [hqe])]
      exact Or.inr ⟨63, q, rfl, by decide⟩
    · have hq0 : q = [] := by simpa using hqe
      subst hq0
      simp
  · cases p2 with
    | nil => simp at hh
    | cons b t =>
      simp only [List.head?, Option.some.injEq] at hh
      subst hh
      exact Or.inr ⟨47, t ++ _, rfl, by decide⟩

lemma split_off_qtail {nl rest2 w q : Bytes}
    (heq : nl ++ rest2 = w ++ (if q.isEmpty then [] else 63 :: q))
    (hnl : ∀ a ∈ nl, isNetlocDelim a = false) :
    ∃ pd, w = nl ++ pd ∧
      rest2 = pd ++ (if q.isEmpty then [] else 63 :: q) := by
  cases hqe : q.isEmpty
  · rw [if_neg (by simp [hqe])] at heq ⊢
    have hle : nl.length ≤ w.length := by
      by_contra hgt
      have h63 : (63 : Nat) ∈ nl := by
        have htake : nl = (nl ++ rest2).take nl.length := (List.take_left nl rest2).symm
        rw [heq, List.take_append_eq_append_take] at htake
        have hpos : 0 < nl.length - w.length := by omega
        have : (63 : Nat) ∈ (63 :: q).take (nl.length - w.length) := by
          cases hk : nl.length - w.length with
          | zero => omega
          | succ k => simp [List.take_succ_cons]
        rw [htake]
        exact List.mem_append.mpr (Or.inr this)
      have := hnl 63 h63
      simp [isNetlocDelim] at this
    have hw : w = w.take nl.length ++ w.drop nl.length := (List.take_append_drop _ _).symm
    have heq2 : nl ++ rest2 = w.take nl.length ++ (w.drop nl.length ++ 63 :: q) := by
      rw [← List.append_assoc, ← hw, heq]
    have hlen : nl.length = (w.take nl.length).length := by
      simp [List.length_take]
      omega
    obtain ⟨h1, h2⟩ := List.append_inj heq2 hlen
    refine ⟨w.drop nl.length, ?_, h2⟩
    rw [← h1] at hw
    exact hw
  · have hq0 : q = [] := by simpa using hqe
    subst hq0
    simp only [List.isEmpty_nil, if_true, List.append_nil] at heq ⊢
    exact ⟨rest2, heq.symm, by simp⟩

lemma urlunsplitB_shape (s n p q : Bytes) :
    urlunsplitB s n p q [] =
      (if s.isEmpty then
        (if (!n.isEmpty || (!s.isEmpty && usesNetloc.contains s &&
            decide (p.take 2 ≠ [47, 47]))) = true then
          47 :: 47 :: (n ++ (if (!p.isEmpty && decide (p.head? ≠ some 47)) = true
            then 47 :: p else p))
         else p)
       else s ++ 58 :: (if (!n.isEmpty || (!s.isEmpty && usesNetloc.contains s &&
            decide (p.take 2 ≠ [47, 47]))) = true then
          47 :: 47 :: (n ++ (if (!p.isEmpty && decide (p.head? ≠ some 47)) = true
            then 47 :: p else p))
         else p)) ++
      (if q.isEmpty then [] else 63 :: q) := by
  unfold urlunsplitB
  rw [if_neg (by simp)]
  cases hs : s.isEmpty <;> cases hq : q.isEmpty <;>
    simp [hs, hq]

lemma shape_comm (s url qt : Bytes) :
    (if s.isEmpty then url else s ++ 58 :: url) ++ qt =
      (if s.isEmpty then url ++ qt else s ++ 58 :: (url ++ qt)) := by
  cases hs : s.isEmpty <;> simp

lemma qtail_shape (q : Bytes) :
    (if q.isEmpty then ([] : Bytes) else 63 :: q) = [] ∨
    ∃ t, (if q.isEmpty then ([] : Bytes) else 63 :: q) = 63 :: t := by
  cases hq : q.isEmpty
  · exact Or.inr ⟨q, by simp⟩
  · exact Or.inl (by simp)


lemma urlsplitB_steps {x s r1 nn r2 f1 f2 pth q : Bytes}
    (hcl : removeUnsafe x = x)
    (hs : splitScheme x = (s, r1))
    (hn : splitNetloc r1 = (nn, r2))
    (hf : splitFragmentB r2 = (f1, f2))
    (hqu : splitQueryB f1 = (pth, q)) :
    urlsplitB x = ⟨s, nn, pth, q, f2⟩ := by
  simp only [urlsplitB, hcl, hs, hn, hf, hqu]

lemma reassemble_slash {s n pf Q : Bytes}
    (hC2 : (!n.isEmpty || (!s.isEmpty && usesNetloc.contains s &&
        decide (pf.take 2 ≠ [47, 47]))) = true)
    (hhead : pf = [] ∨ pf.head? = some 47) :
    urlunsplitB s n pf Q [] =
      (if s.isEmpty then 47 :: 47 :: (n ++ pf)
          else s ++ 58 :: (47 :: 47 :: (n ++ pf))) ++
        (if Q.isEmpty then [] else 63 :: Q) := by
  rw [urlunsplitB_shape s n pf Q, if_pos hC2]
  have hF : ¬((!pf.isEmpty && decide (pf.head? ≠ some 47)) = true) := by
    rcases hhead with rfl | hh
    · simp
    · simp [hh]
  rw [if_neg hF]

lemma resplit_core_slash {s n pf Q : Bytes}
    (HsV : s = [] ∨ validLowerScheme s = true)
    (Hn : ∀ a ∈ n, isNetlocDelim a = false)
    (hpf63 : ∀ a ∈ pf, a ≠ 63) (hpf35 : ∀ a ∈ pf, a ≠ 35)
    (hq : ∀ a ∈ Q, isEncOut a = true)
    (hhead : pf = [] ∨ pf.head? = some 47)
    (hcl : removeUnsafe ((if s.isEmpty then 47 :: 47 :: (n ++ pf)
          else s ++ 58 :: (47 :: 47 :: (n ++ pf))) ++
        (if Q.isEmpty then [] else 63 :: Q)) =
      (if s.isEmpty then 47 :: 47 :: (n ++ pf)
          else s ++ 58 :: (47 :: 47 :: (n ++ pf))) ++
        (if Q.isEmpty then [] else 63 :: Q)) :
    urlsplitB ((if s.isEmpty then 47 :: 47 :: (n ++ pf)
          else s ++ 58 :: (47 :: 47 :: (n ++ pf))) ++
        (if Q.isEmpty then [] else 63 :: Q)) = ⟨s, n, pf, Q, []⟩ := by
  have hrest : (47 :: 47 :: (n ++ pf)) ++ (if Q.isEmpty then [] else 63 :: Q) =
      47 :: 47 :: (n ++ (pf ++ (if Q.isEmpty then [] else 63 :: Q))) := by
    simp [List.append_assoc]
  rw [shape_comm, hrest] at hcl ⊢
  obtain ⟨hfr, hqu⟩ := pass2_tail hpf35 hpf63 hq
  have hEmpty : s = [] → splitScheme (47 :: 47 :: (n ++ (pf ++
      (if Q.isEmpty then [] else 63 :: Q)))) = ([], 47 :: 47 :: (n ++ (pf ++
      (if Q.isEmpty then [] else 63 :: Q)))) :=
    fun _ => splitScheme_head_not_alpha (by decide)
  exact urlsplitB_steps hcl (pass2_scheme HsV hEmpty)
    (splitNetloc_recover Hn (tail_shape hhead)) hfr hqu

lemma resplit_exists {s n p Q : Bytes}
    (HsV : s = [] ∨ validLowerScheme s = true)
    (HsFail : s = [] →
      (∃ x0 m, splitScheme x0 = ([], x0) ∧ p = x0.take m) ∨ p = [] ∨ p.head? = some 47)
    (Hn : ∀ a ∈ n, isNetlocDelim a = false)
    (Hp63 : ∀ a ∈ p, a ≠ 63) (Hp35 : ∀ a ∈ p, a ≠ 35)
    (Hdeg : ¬(n = [] ∧ (p = [47, 47] ∨ p.take 3 = [47, 47, 47])))
    (hq : ∀ a ∈ Q, isEncOut a = true)
    (hclean : removeUnsafe (urlunsplitB s n p Q []) = urlunsplitB s n p Q []) :
    ∃ N2 P2, urlsplitB (urlunsplitB s n p Q []) = ⟨s, N2, P2, Q, []⟩ ∧
      urlunsplitB s N2 P2 Q [] = urlunsplitB s n p Q [] := by
  have hform := urlunsplitB_shape s n p Q
  by_cases hC : (!n.isEmpty || (!s.isEmpty && usesNetloc.contains s &&
      decide (p.take 2 ≠ [47, 47]))) = true
  · -- the `//`-form is emitted
    rw [if_pos hC] at hform
    by_cases hF : (!p.isEmpty && decide (p.head? ≠ some 47)) = true
    · -- the path got a `/` prepended
      rw [if_pos hF] at hform
      simp only [Bool.and_eq_true, decide_eq_true_eq] at hF
      obtain ⟨hpne, hphead⟩ := hF
      refine ⟨n, 47 :: p, ?_, ?_⟩
      · have hcl2 := hclean
        rw [hform] at hcl2 ⊢
        refine resplit_core_slash HsV Hn ?_ ?_ hq (Or.inr rfl) hcl2
        · intro a ha
          rcases List.mem_cons.mp ha with rfl | h2
          · omega
          · exact Hp63 a h2
        · intro a ha
          rcases List.mem_cons.mp ha with rfl | h2
          · omega
          · exact Hp35 a h2
      · rw [hform]
        apply reassemble_slash ?_ (Or.inr (show (47 :: p).head? = some 47 from rfl))
        rcases Bool.or_eq_true_iff.mp hC with h | h
        · exact Bool.or_eq_true_iff.mpr (Or.inl h)
        · apply Bool.or_eq_true_iff.mpr
          right
          simp only [Bool.and_eq_true, decide_eq_true_eq] at h ⊢
          refine ⟨h.1, ?_⟩
          cases p with
          | nil => simp at hpne
          | cons b t =>
            have hb : b ≠ 47 := by
              intro hb47
              exact hphead (by rw [hb47]; rfl)
            have htk : (47 :: b :: t).take 2 = [47, b] := rfl
            rw [htk]
            intro hcontra
            simp only [List.cons.injEq, and_true, true_and] at hcontra
            exact hb hcontra
    · -- the path already starts with `/` (or is empty)
      rw [if_neg hF] at hform
      have hhead : p = [] ∨ p.head? = some 47 := by
        by_cases hpe : p = []
        · exact Or.inl hpe
        · right
          by_contra hne
          apply hF
          simp only [Bool.and_eq_true, decide_eq_true_eq]
          refine ⟨?_, hne⟩
          cases p with
          | nil => exact absurd rfl hpe
          | cons a t => rfl
      refine ⟨n, p, ?_, ?_⟩
      · have hcl2 := hclean
        rw [hform] at hcl2 ⊢
        exact resplit_core_slash HsV Hn Hp63 Hp35 hq hhead hcl2
      · rfl
  · -- no `//` is emitted: the netloc must be empty
    have hCf : (!n.isEmpty || (!s.isEmpty && usesNetloc.contains s &&
        decide (p.take 2 ≠ [47, 47]))) = false := Bool.eq_false_iff.mpr hC
    rw [if_neg hC] at hform
    obtain ⟨h1, h2⟩ := Bool.or_eq_false_iff.mp hCf
    have hn0 : n = [] := by
      cases n with
      | nil => rfl
      | cons a t => simp at h1
    by_cases hslash : p.take 2 = [47, 47]
    · -- degenerate-free `//`-path with empty netloc: re-split finds a netloc
      obtain ⟨w, hw⟩ : ∃ w, p = 47 :: 47 :: w := by
        cases p with
        | nil => simp at hslash
        | cons a t =>
          cases t with
          | nil => simp at hslash
          | cons b t2 =>
            have h2 : a = 47 ∧ b = 47 := by simpa using hslash
            exact ⟨t2, by rw [h2.1, h2.2]⟩
      have hpne2 : ¬(p = [47, 47] ∨ p.take 3 = [47, 47, 47]) :=
        fun hx => Hdeg ⟨hn0, hx⟩
      obtain ⟨c, pr, hwc, hc47⟩ : ∃ c pr, w = c :: pr ∧ c ≠ 47 := by
        cases w with
        | nil => exact absurd (Or.inl (by rw [hw])) hpne2
        | cons c pr =>
          refine ⟨c, pr, rfl, ?_⟩
          intro hc
          subst hc
          exact hpne2 (Or.inr (by rw [hw]; rfl))
      have hcmem : c ∈ p := by
        rw [hw, hwc]
        simp
      have hcnd : isNetlocDelim c = false := by
        have h63 := Hp63 c hcmem
        have h35 := Hp35 c hcmem
        simp [isNetlocDelim, hc47, h63, h35]
      have hRtake : (p ++ (if Q.isEmpty then [] else 63 :: Q)).take 2 = [47, 47] := by
        rw [hw]
        rfl
      obtain ⟨nl, rst, hnet⟩ : ∃ nl rst,
          splitNetloc (p ++ (if Q.isEmpty then [] else 63 :: Q)) = (nl, rst) :=
        ⟨_, _, rfl⟩
      have hnl : ∀ a ∈ nl, isNetlocDelim a = false := by
        have hx := splitNetloc_fst_no_delim
          (x := p ++ (if Q.isEmpty then [] else 63 :: Q))
        rw [hnet] at hx
        exact hx
      have hshape2 : rst = [] ∨ ∃ b t, rst = b :: t ∧ isNetlocDelim b = true := by
        have hx := splitNetloc_snd_shape hRtake
        rw [hnet] at hx
        exact hx
      have hdec : (p ++ (if Q.isEmpty then [] else 63 :: Q)).drop 2 = nl ++ rst := by
        have hx := splitNetloc_decomp hRtake
        rw [hnet] at hx
        exact hx
      have hdrop : (p ++ (if Q.isEmpty then [] else 63 :: Q)).drop 2 =
          w ++ (if Q.isEmpty then [] else 63 :: Q) := by
        rw [hw]
        rfl
      have heq : nl ++ rst = w ++ (if Q.isEmpty then [] else 63 :: Q) := by
        rw [hdec] at hdrop
        exact hdrop
      obtain ⟨pd, hwpd, hrst⟩ := split_off_qtail heq hnl
      have hnlne : nl ≠ [] := by
        intro hnl0
        subst hnl0
        simp only [List.nil_append] at hwpd
        rcases hshape2 with h0 | ⟨b, t, hbt, hbd⟩
        · rw [hrst, ← hwpd, hwc] at h0
          simp at h0
        · rw [hrst, ← hwpd, hwc] at hbt
          have hcb : c = b := by
            have hx := congrArg List.head? hbt
            simpa using hx
          rw [← hcb] at hbd
          rw [hcnd] at hbd
          exact Bool.noConfusion hbd
      have hpdhead : pd = [] ∨ pd.head? = some 47 := by
        cases pd with
        | nil => exact Or.inl rfl
        | cons d t =>
          right
          rcases hshape2 with h0 | ⟨b, t2, hbt, hbd⟩
          · rw [hrst] at h0
            simp at h0
          · rw [hrst] at hbt
            have hdb : d = b := by
              have hx := congrArg List.head? hbt
              simpa using hx
            have hdp : d ∈ p := by
              rw [hw, hwpd]
              simp
            have h63 := Hp63 d hdp
            have h35 := Hp35 d hdp
            rw [← hdb] at hbd
            simp only [isNetlocDelim, Bool.or_eq_true, beq_iff_eq] at hbd
            rcases hbd with (rfl | hx) | hx
            · rfl
            · exact absurd hx h63
            · exact absurd hx h35
      have hpd63 : ∀ a ∈ pd, a ≠ 63 := by
        intro a ha
        apply Hp63 a
        rw [hw, hwpd]
        simp [ha]
      have hpd35 : ∀ a ∈ pd, a ≠ 35 := by
        intro a ha
        apply Hp35 a
        rw [hw, hwpd]
        simp [ha]
      have hp' : p = 47 :: 47 :: (nl ++ pd) := by
        rw [hw, hwpd]
      refine ⟨nl, pd, ?_, ?_⟩
      · have hcl2 := hclean
        rw [hform] at hcl2 ⊢
        rw [hp'] at hcl2 ⊢
        exact resplit_core_slash HsV hnl hpd63 hpd35 hq hpdhead hcl2
      · rw [hform, hp']
        apply reassemble_slash ?_ hpdhead
        cases nl with
        | nil => exact absurd rfl hnlne
        | cons x xs => simp
    · -- plain path: the re-split reproduces all components verbatim
      have hqt58 : ∀ a ∈ (if Q.isEmpty then ([] : Bytes) else 63 :: Q), a ≠ 58 := by
        intro a ha
        by_cases hqe : Q.isEmpty
        · rw [if_pos hqe] at ha
          simp at ha
        · rw [if_neg hqe] at ha
          rcases List.mem_cons.mp ha with rfl | hx
          · omega
          · exact (isEncOut_facts (hq a hx)).1
      have hEmpty : s = [] → splitScheme (p ++ (if Q.isEmpty then [] else 63 :: Q)) =
          ([], p ++ (if Q.isEmpty then [] else 63 :: Q)) := by
        intro hs0
        rcases HsFail hs0 with ⟨x0, m, hfail, hp⟩ | hp0 | hph
        · rw [hp]
          exact splitScheme_transfer hfail m hqt58
        · subst hp0
          simp only [List.nil_append]
          by_cases hqe : Q.isEmpty
          · rw [if_pos hqe]
            rfl
          · rw [if_neg hqe]
            exact splitScheme_head_not_alpha (by decide)
        · cases p with
          | nil => simp at hph
          | cons b t =>
            have hb : b = 47 := by simpa using hph
            subst hb
            exact splitScheme_head_not_alpha (by decide)
      have hskip : splitNetloc (p ++ (if Q.isEmpty then [] else 63 :: Q)) =
          ([], p ++ (if Q.isEmpty then [] else 63 :: Q)) :=
        splitNetloc_skip (take2_append_ne hslash (qtail_shape Q))
      obtain ⟨hfr, hqu⟩ := pass2_tail Hp35 Hp63 hq
      refine ⟨[], p, ?_, ?_⟩
      · have hcl2 := hclean
        rw [hform, shape_comm] at hcl2 ⊢
        exact urlsplitB_steps hcl2 (pass2_scheme HsV hEmpty) hskip hfr hqu
      · rw [hn0]

lemma canonCore_stable {s n p : Bytes} {L : List (Bytes × Bytes)}
    (HsV : s = [] ∨ validLowerScheme s = true)
    (HsFail : s = [] →
      (∃ x0 m, splitScheme x0 = ([], x0) ∧ p = x0.take m) ∨ p = [] ∨ p.head? = some 47)
    (Hn : ∀ a ∈ n, isNetlocDelim a = false)
    (Hntrn : ∀ a ∈ n, a ≠ 9 ∧ a ≠ 10 ∧ a ≠ 13)
    (Hptrn : ∀ a ∈ p, a ≠ 9 ∧ a ≠ 10 ∧ a ≠ 13)
    (Hp63 : ∀ a ∈ p, a ≠ 63)
    (Hp35 : ∀ a ∈ p, a ≠ 35)
    (HL256 : ∀ kv ∈ L, (∀ b ∈ kv.1, b < 256) ∧ ∀ b ∈ kv.2, b < 256)
    (Hfix : L.filter (fun kv => !(dropQueryKeys.contains (kv.1.map toLowerB))) = L)
    (Hsorted : sortPairs L = L)
    (Hdeg : ¬(n = [] ∧ (p = [47, 47] ∨ p.take 3 = [47, 47, 47])))
    (Hstrip : pyStrip (urlunsplitB s n p (urlencodeB L) []) =
      urlunsplitB s n p (urlencodeB L) []) :
    normalizePdfUrl (urlunsplitB s n p (urlencodeB L) []) =
      urlunsplitB s n p (urlencodeB L) [] := by
  have hq : ∀ a ∈ urlencodeB L, isEncOut a = true := fun a ha => urlencodeB_isEncOut ha
  have hclean : removeUnsafe (urlunsplitB s n p (urlencodeB L) []) =
      urlunsplitB s n p (urlencodeB L) [] := by
    apply removeUnsafe_eq_self
    intro a ha
    rcases urlunsplitB_mem ha with h | h | h | h | rfl | rfl | rfl
    · rcases HsV with rfl | hv
      · simp at h
      · have hfacts := schemeByte_facts (validLowerScheme_bytes hv a h)
        exact ⟨hfacts.1, hfacts.2.1, hfacts.2.2.1⟩
    · exact Hntrn a h
    · exact Hptrn a h
    · have hfacts := isEncOut_facts (hq a h)
      exact ⟨hfacts.2.2.2.1, hfacts.2.2.2.2.1, hfacts.2.2.2.2.2.1⟩
    · omega
    · omega
    · omega
  obtain ⟨N2, P2, hsplit, hre⟩ :=
    resplit_exists HsV HsFail Hn Hp63 Hp35 Hdeg hq hclean
  unfold normalizePdfUrl
  rw [Hstrip]
  by_cases hoe : (urlunsplitB s n p (urlencodeB L) []).isEmpty
  · rw [if_pos hoe]
  · rw [if_neg hoe]
    unfold normalizePdfCore
    simp only [hsplit]
    rw [parseQsl_urlencodeB HL256, Hfix, Hsorted]
    exact hre

/-- C7 counterexample: `_normalize_pdf_url` is not idempotent.  Two failing
families: (1) a path with trailing whitespace before the query — the first
pass moves the space to the end of the URL and the second pass's outer
`.strip()` removes it (`"http://h/a ?ts=1"` → `"http://h/a "` → `"http://h/a"`);
(2) an empty netloc with a path starting `//` — `urlsplit`/`urlunsplit` are not
inverse there and each pass eats one slash (`"/////x"` → `"///x"` → `"/x"`). -/
theorem c7_counterexample :
    normalizePdfUrl (normalizePdfUrl (asciiBytes "http://h/a ?ts=1")) ≠
      normalizePdfUrl (asciiBytes "http://h/a ?ts=1") ∧
    normalizePdfUrl (normalizePdfUrl (asciiBytes "/////x")) ≠
      normalizePdfUrl (asciiBytes "/////x") := by
  constructor
  · decide
  · decide

/-- C7 (amended): `_normalize_pdf_url` is idempotent on every URL `u` (bytes
below 256) whose first normalization has no leading/trailing Python
whitespace, and whose split form after stripping does not have an empty
netloc together with a path that is `//` or starts with `///`.  (The two
excluded families are exactly the counterexamples above.) -/
theorem c7_canon_idem (u : Bytes)
    (H256 : ∀ b ∈ u, b < 256)
    (H1 : pyStrip (normalizePdfUrl u) = normalizePdfUrl u)
    (H2 : ¬((urlsplitB (pyStrip u)).netloc = [] ∧
      ((urlsplitB (pyStrip u)).path = [47, 47] ∨
        (urlsplitB (pyStrip u)).path.take 3 = [47, 47, 47]))) :
    normalizePdfUrl (normalizePdfUrl u) = normalizePdfUrl u := by
  have hS : (urlsplitB (pyStrip u)).scheme =
      (splitScheme (removeUnsafe (pyStrip u))).1 := rfl
  have hN : (urlsplitB (pyStrip u)).netloc =
      (splitNetloc (splitScheme (removeUnsafe (pyStrip u))).2).1 := rfl
  have hP : (urlsplitB (pyStrip u)).path =
      (splitQueryB (splitFragmentB
        (splitNetloc (splitScheme (removeUnsafe (pyStrip u))).2).2).1).1 := rfl
  have hQv : (urlsplitB (pyStrip u)).query =
      (splitQueryB (splitFragmentB
        (splitNetloc (splitScheme (removeUnsafe (pyStrip u))).2).2).1).2 := rfl
  rw [canon_eq_core u] at H1 ⊢
  refine canonCore_stable ?_ ?_ ?_ ?_ ?_ ?_ ?_ ?_ ?_ ?_ H2 H1
  · rw [hS]
    exact splitScheme_fst_valid _
  · intro hS0
    rw [hS] at hS0
    have hfail := splitScheme_fst_empty hS0
    have hr1 : (splitScheme (removeUnsafe (pyStrip u))).2 = removeUnsafe (pyStrip u) := by
      rw [hfail]
    by_cases htake : (removeUnsafe (pyStrip u)).take 2 = [47, 47]
    · right
      rw [hP, hr1]
      exact path_head_of_shape (splitNetloc_snd_shape htake)
    · have hr2 : (splitNetloc (removeUnsafe (pyStrip u))).2 = removeUnsafe (pyStrip u) := by
        rw [splitNetloc_skip htake]
      obtain ⟨m1, hm1⟩ := splitFragmentB_fst_take (removeUnsafe (pyStrip u))
      obtain ⟨m2, hm2⟩ :=
        splitQueryB_fst_take ((splitFragmentB (removeUnsafe (pyStrip u))).1)
      left
      refine ⟨removeUnsafe (pyStrip u), min m2 m1, hfail, ?_⟩
      rw [hP, hr1, hr2, hm2, hm1, List.take_take]
  · rw [hN]
    exact splitNetloc_fst_no_delim
  · intro a ha
    rw [hN] at ha
    exact removeUnsafe_no_trn a
      (splitScheme_snd_subset a (splitNetloc_fst_subset a ha))
  · intro a ha
    rw [hP] at ha
    exact removeUnsafe_no_trn a (splitScheme_snd_subset a
      (splitNetloc_snd_subset a (splitFragmentB_fst_subset a
        (splitQueryB_fst_subset a ha))))
  · intro a ha
    rw [hP] at ha
    have hx := splitQueryB_fst_no63 a ha
    simpa using hx
  · intro a ha
    rw [hP] at ha
    have hx := splitFragmentB_fst_no35 a (splitQueryB_fst_subset a ha)
    simpa using hx
  · intro kv hkv
    have h1 : kv ∈ (parseQsl (urlsplitB (pyStrip u)).query).filter
        (fun kv => !(dropQueryKeys.contains (kv.1.map toLowerB))) :=
      (List.perm_insertionSort pairRel _).mem_iff.mp hkv
    have h2 : kv ∈ parseQsl (urlsplitB (pyStrip u)).query := List.mem_of_mem_filter h1
    have hQ256 : ∀ b ∈ (urlsplitB (pyStrip u)).query, b < 256 := by
      intro b hb
      rw [hQv] at hb
      exact H256 b (pyStrip_subset b (removeUnsafe_subset b
        (splitScheme_snd_subset b (splitNetloc_snd_subset b
          (splitFragmentB_fst_subset b (splitQueryB_snd_subset b hb))))))
    exact parseQsl_lt256 hQ256 kv h2
  · exact filter_sortPairs_fixed _ _
  · exact sortPairs_idem _

/-- C7 witness: the amended idempotence theorem applied at the concrete URL
`https://x/a?b=1`, whose hypotheses all hold. -/
theorem c7_canon_idem_witness :
    (∀ b ∈ asciiBytes "https://x/a?b=1", b < 256) ∧
    pyStrip (normalizePdfUrl (asciiBytes "https://x/a?b=1")) =
      normalizePdfUrl (asciiBytes "https://x/a?b=1") ∧
    ¬((urlsplitB (pyStrip (asciiBytes "https://x/a?b=1"))).netloc = [] ∧
      ((urlsplitB (pyStrip (asciiBytes "https://x/a?b=1"))).path = [47, 47] ∨
        (urlsplitB (pyStrip (asciiBytes "https://x/a?b=1"))).path.take 3 =
          [47, 47, 47])) ∧
    normalizePdfUrl (normalizePdfUrl (asciiBytes "https://x/a?b=1")) =
      normalizePdfUrl (asciiBytes "https://x/a?b=1") :=
  ⟨by decide, by decide, by decide,
    c7_canon_idem (asciiBytes "https://x/a?b=1") (by decide) (by decide) (by decide)⟩
